import Mathlib

/-!
# sub5.c: the symbol reader `getNextSym`, the buffer doubling `expand` and the
replace-or-copy loop of `main`

A shallow embedding of `src/sub5.c`.

* A character is a value of `unsigned char`, as `fgetc` delivers it: `Byte`.
* The input stream is the list of the characters not read yet; `fgetc` takes
  the head, `ungetc` puts a character back in front, end of file is `[]`.
* The buffer is the allocated block (`cells`) together with the recorded
  capacity (`bufsize`), two separate things as in the C code.
* `realloc` is an environment: `Heap` says, for the k-th call, whether it
  returns `NULL` or a block, and what the block holds past the copied part.
* A store `(*buf)[i] = c` outside the allocated block has no defined
  behaviour: the embedding returns `none` there.
* `size_t` values are natural numbers.  `*bufsize * 2` could only wrap after
  an allocation of at least `2^63` characters has succeeded; the one place
  where wrapping is reachable on small values, `charsRead-1` at `charsRead = 0`,
  is written with the explicit `% 2^64`.
* The file names of `main`: `sscanf` and `sprintf` are embedded for the one
  format they are called with, `toolchain%d.sh`, after the C standard; `int`
  has 32 bits, as the comment of lines 136-139 assumes, and a value outside
  its range (a number read that does not fit, `ordinal + 1` past `INT_MAX`, a
  name longer than the array) is undefined behaviour, kept apart from a result.
-/

namespace Sub5

/-- A character as `fgetc` delivers it: an `unsigned char` value. -/
abbrev Byte := Fin 256

/-- The classifier `isalpha` of `<ctype.h>` in the "C" locale, the locale of a
program that never calls `setlocale`: the 52 letters. -/
def isalpha (c : Byte) : Bool :=
  (65 ≤ c.val && c.val ≤ 90) || (97 ≤ c.val && c.val ≤ 122)

/-- The classifier `isdigit` of `<ctype.h>`: the ten digits. -/
def isdigit (c : Byte) : Bool :=
  48 ≤ c.val && c.val ≤ 57

/-- The test of line 37, negated: the character is alphanumeric. -/
def isAlnum (c : Byte) : Bool :=
  !(!isalpha c && !isdigit c)

/-- The growable buffer: `*buf` (the allocated block) and `*bufsize`. -/
structure Buffer where
  cells : List Byte
  bufsize : Nat
deriving DecidableEq

/-- The allocator seen from the program: the outcome of the k-th `realloc`
call, `none` for `NULL`, `some fresh` for a new block whose cell `i` past the
copied part holds `fresh i`. -/
abbrev Heap := Nat → Option (Nat → Byte)

/-- The block `realloc` returns on success: the old contents up to the lesser
of the two sizes, then cells of unspecified content. -/
def realloc (cells : List Byte) (size : Nat) (fresh : Nat → Byte) : List Byte :=
  cells.take size ++ (List.range (size - cells.length)).map fresh

/-- The function `expand` (lines 11-20): the returned `int` and the buffer
after the call; `k` numbers the `realloc` call.  On failure neither `*buf` nor
`*bufsize` is assigned. -/
def expand (heap : Heap) (k : Nat) (b : Buffer) : Nat × Buffer :=
  match heap k with
  | some fresh =>
      (1, { cells := realloc b.cells (b.bufsize * 2) fresh, bufsize := b.bufsize * 2 })
  | none => (0, b)

/-- The store `(*buf)[i] = c`; `none` when `i` is outside the allocated block. -/
def store (b : Buffer) (i : Nat) (c : Byte) : Option Buffer :=
  if i < b.cells.length then some { b with cells := b.cells.set i c } else none

/-- What the program can see and change: the unread input, the buffer, and
the number of `realloc` calls made so far. -/
structure State where
  stream : List Byte
  buf : Buffer
  allocs : Nat
deriving DecidableEq

/-- What a call of `getNextSym` leaves: the returned `int`, the index at which
the call wrote its terminator (the number of characters stored before it; 0
when no terminator is written), and the state. -/
structure Result where
  status : Nat
  len : Nat
  st : State
deriving DecidableEq

/-- The `while` loop of `getNextSym` (lines 35-97) with `charsRead`, the
buffer and the `realloc` counter as loop variables; one list element is one
`fgetc`. -/
def readLoop (heap : Heap) : List Byte → Nat → Buffer → Nat → Option Result
  | [], charsRead, buf, k =>
      if charsRead > 0 then
        (store buf charsRead 0).map fun b => ⟨1, charsRead, ⟨[], b, k⟩⟩
      else
        some ⟨0, 0, ⟨[], buf, k⟩⟩
  | c :: rest, charsRead, buf, k =>
      if !isalpha c && !isdigit c then
        if charsRead > 0 then
          (store buf charsRead 0).map fun b => ⟨1, charsRead, ⟨c :: rest, b, k⟩⟩
        else
          (store buf 0 c).bind fun b0 =>
            (store b0 1 0).map fun b1 => ⟨1, 1, ⟨rest, b1, k⟩⟩
      else if charsRead + 1 < buf.bufsize then
        (store buf charsRead c).bind fun b => readLoop heap rest (charsRead + 1) b k
      else
        let r := expand heap k buf
        if r.1 ≠ 0 then
          (store r.2 charsRead c).bind fun b => readLoop heap rest (charsRead + 1) b (k + 1)
        else if charsRead = r.2.bufsize then
          (store r.2 ((charsRead + 2 ^ 64 - 1) % 2 ^ 64) 0).map fun b =>
            ⟨0, (charsRead + 2 ^ 64 - 1) % 2 ^ 64, ⟨c :: rest, b, k + 1⟩⟩
        else
          readLoop heap rest charsRead r.2 (k + 1)

/-- The function `getNextSym` (lines 30-98): the loop entered with `charsRead = 0`. -/
def getNextSym (heap : Heap) (st : State) : Option Result :=
  readLoop heap st.stream 0 st.buf st.allocs

/-- The token of a call: the characters it stored before the terminator it wrote. -/
def token (r : Result) : List Byte :=
  r.st.buf.cells.take r.len

/-- The buffer read as a C string, as `strcmp` and `%s` read it: the
characters before the first zero; `none` when the block holds no zero. -/
def cstr : List Byte → Option (List Byte)
  | [] => none
  | c :: rest => if c = 0 then some [] else (cstr rest).map (c :: ·)

/-- Calling `getNextSym` until it returns 0: the tokens in order and the
state left.  `fuel` bounds the number of calls. -/
def symbols (heap : Heap) : Nat → State → Option (List (List Byte) × State)
  | 0, _ => none
  | fuel + 1, st =>
      match getNextSym heap st with
      | none => none
      | some r =>
          if r.status = 0 then some ([], r.st)
          else (symbols heap fuel r.st).map fun p => (token r :: p.1, p.2)

/-- The loop of `main` (lines 169-175): what is written to the output file and
the state left.  `sym1` and `sym2` are the contents of the argument strings;
`fuel` bounds the number of calls. -/
def mainLoop (heap : Heap) (sym1 sym2 : List Byte) : Nat → State → Option (List Byte × State)
  | 0, _ => none
  | fuel + 1, st =>
      match getNextSym heap st with
      | none => none
      | some r =>
          if r.status = 0 then some ([], r.st)
          else
            (cstr r.st.buf.cells).bind fun s =>
              (mainLoop heap sym1 sym2 fuel r.st).map fun p =>
                ((if s = sym1 then sym2 else s) ++ p.1, p.2)

/-- The allocator that never fails; fresh cells hold `junk`. -/
def heapOk (junk : Byte) : Heap := fun _ => some (fun _ => junk)

/-- The allocator that always fails. -/
def heapFail : Heap := fun _ => none

/-- A block of `n` cells, all holding `x`, recorded with capacity `n`. -/
def mkBuffer (n : Nat) (x : Byte) : Buffer := ⟨List.replicate n x, n⟩

/-! ### Vocabulary of the statements -/

/-- The buffer as `main` sets it up and as `expand` keeps it: the block has
the recorded capacity. -/
def Buffer.sized (b : Buffer) : Prop := b.cells.length = b.bufsize

instance (b : Buffer) : Decidable b.sized := by
  unfold Buffer.sized
  infer_instance

/-- Every `realloc` call succeeds. -/
def Heap.neverFails (heap : Heap) : Prop := ∀ k, (heap k).isSome = true

/-- Where a call starts on a stream: the leading alphanumeric run. -/
def leadRun (s : List Byte) : List Byte := s.takeWhile isAlnum

/-- Where a call starts on a stream: what follows the leading run. -/
def afterRun (s : List Byte) : List Byte := s.dropWhile isAlnum

/-- The shape of a token: a non-empty sequence of alphanumeric characters, or
one character that is not alphanumeric. -/
def tokenShape (t : List Byte) : Prop :=
  (t ≠ [] ∧ ∀ c ∈ t, isAlnum c = true) ∨ ∃ d, t = [d] ∧ isAlnum d = false

/-- The symbol a stream starts with: its leading alphanumeric run, or its
first character when that one is not alphanumeric. -/
def firstSym : List Byte → List Byte
  | [] => []
  | c :: rest => if isAlnum c then leadRun (c :: rest) else [c]

/-! ### The file names (lines 100-145) -/

/-- The classifier `isspace` of `<ctype.h>` in the "C" locale: the space and
the five control characters from tab to carriage return. -/
def isspace (c : Byte) : Bool :=
  c.val = 32 || (9 ≤ c.val && c.val ≤ 13)

/-- The characters of the string literal `toolchain`. -/
def toolchainLit : List Byte := [116, 111, 111, 108, 99, 104, 97, 105, 110]

/-- The characters of the string literal `.sh`. -/
def shLit : List Byte := [46, 115, 104]

/-- The largest `int`, for the 32-bit `int` the comment of lines 136-139 assumes. -/
def INT_MAX : Int := 2 ^ 31 - 1

/-- The least `int`. -/
def INT_MIN : Int := -(2 ^ 31)

/-- The character that writes a decimal digit. -/
def digitChar (d : Nat) : Byte := ⟨48 + d % 10, by omega⟩

/-- The decimal digits of a number, most significant first; `fuel` bounds the
number of digits. -/
def decimalFuel : Nat → Nat → List Byte
  | 0, _ => []
  | fuel + 1, n =>
      if n < 10 then [digitChar n] else decimalFuel fuel (n / 10) ++ [digitChar (n % 10)]

/-- A natural number written in decimal, without leading zeros: what `%d`
prints for a value that is not negative. -/
def decimal (n : Nat) : List Byte := decimalFuel (n + 1) n

/-- What `%d` prints for an `int`. -/
def printInt (v : Int) : List Byte :=
  if v < 0 then 45 :: decimal v.natAbs else decimal v.toNat

/-- How a directive of `sscanf` ends: it matched and left `rest` unread, or the
string ended before it could match, or the input did not match. -/
inductive Scan (α : Type) where
  | ok (a : α) (rest : List Byte)
  | inputFailure
  | matchFailure

/-- The ordinary characters of a format matched one by one against the input. -/
def matchLiteral : List Byte → List Byte → Scan Unit
  | [], s => Scan.ok () s
  | _ :: _, [] => Scan.inputFailure
  | f :: fs, c :: s => if f = c then matchLiteral fs s else Scan.matchFailure

/-- The value of the longest run of decimal digits at the head of the input,
continuing from the value `v`, and the input left. -/
def scanDigits : List Byte → Nat → Nat × List Byte
  | [], v => (v, [])
  | c :: rest, v =>
      if isdigit c then scanDigits rest (10 * v + (c.val - 48)) else (v, c :: rest)

/-- The directive `%d`: white space is skipped, then an optional sign and a
non-empty run of decimal digits are read; the value is the mathematical one. -/
def scanInt (s : List Byte) : Scan Int :=
  match s.dropWhile isspace with
  | [] => Scan.inputFailure
  | c :: rest =>
      if c = 45 then
        match rest with
        | [] => Scan.matchFailure
        | d :: _ =>
            if isdigit d then Scan.ok (-((scanDigits rest 0).1 : Int)) (scanDigits rest 0).2
            else Scan.matchFailure
      else if c = 43 then
        match rest with
        | [] => Scan.matchFailure
        | d :: _ =>
            if isdigit d then Scan.ok ((scanDigits rest 0).1 : Int) (scanDigits rest 0).2
            else Scan.matchFailure
      else if isdigit c then
        Scan.ok ((scanDigits (c :: rest) 0).1 : Int) (scanDigits (c :: rest) 0).2
      else Scan.matchFailure

/-- The call `sscanf( filename, "toolchain%d.sh", &ord )` of line 107: the
returned `int` (the number of assignments, or `EOF` = -1 when the string ends
before the conversion) and the value assigned to `ord`, if any.  Whether `.sh`
follows has no effect on either.  `none` when the number read does not fit an
`int`, where the behaviour is undefined. -/
def sscanfOrd (filename : List Byte) : Option (Int × Option Int) :=
  match matchLiteral toolchainLit filename with
  | Scan.inputFailure => some (-1, none)
  | Scan.matchFailure => some (0, none)
  | Scan.ok _ s =>
      match scanInt s with
      | Scan.inputFailure => some (-1, none)
      | Scan.matchFailure => some (0, none)
      | Scan.ok v _ => if INT_MIN ≤ v ∧ v ≤ INT_MAX then some (1, some v) else none

/-- The function `getOrdinal` (lines 104-111); `none` when the behaviour of the
`sscanf` call is undefined. -/
def getOrdinal (filename : List Byte) : Option Int :=
  match sscanfOrd filename with
  | none => none
  | some (ret, ord) => if ret = 1 then ord else some (-1)

/-- The size of the array `ofilename` (line 140):
`sizeof "toolchain" + sizeof ".sh" + 12`. -/
def ofilenameSize : Nat := (toolchainLit.length + 1) + (shLit.length + 1) + 12

/-- What lines 129-145 of `main` come to: the program exits, or the behaviour
is undefined, or the output file name is built. -/
inductive Naming where
  | exitFailure
  | undefined
  | built (ofilename : List Byte)
deriving DecidableEq

/-- Lines 129-145 of `main`: the ordinal is parsed, a negative one ends the
program, `ordinal + 1` must not overflow, and `sprintf` writes
`toolchain%d.sh` with its terminator into `ofilename`, which must hold it;
`sprintf` returns the number of characters written, and 0 ends the program. -/
def buildName (filename : List Byte) : Naming :=
  match getOrdinal filename with
  | none => Naming.undefined
  | some ordinal =>
      if ordinal < 0 then Naming.exitFailure
      else if INT_MAX < ordinal + 1 then Naming.undefined
      else if ofilenameSize < (toolchainLit ++ printInt (ordinal + 1) ++ shLit).length + 1 then
        Naming.undefined
      else if (toolchainLit ++ printInt (ordinal + 1) ++ shLit).length = 0 then
        Naming.exitFailure
      else Naming.built (toolchainLit ++ printInt (ordinal + 1) ++ shLit)

end Sub5

namespace Sub5

/-! ## Lists and stores -/

theorem take_set_same (l : List Byte) (n : Nat) (c : Byte) :
    (l.set n c).take n = l.take n := by
  induction l generalizing n with
  | nil => simp
  | cons x xs ih =>
    cases n with
    | zero => simp
    | succ m => simp [List.set, ih]

theorem take_set_succ (l : List Byte) (n : Nat) (c : Byte) (h : n < l.length) :
    (l.set n c).take (n + 1) = l.take n ++ [c] := by
  induction l generalizing n with
  | nil => simp at h
  | cons x xs ih =>
    cases n with
    | zero => simp
    | succ m =>
      have hm : m < xs.length := by simpa using h
      simp [List.set, ih m hm]

theorem getElem?_set_same (l : List Byte) (n : Nat) (c : Byte) (h : n < l.length) :
    (l.set n c)[n]? = some c := by
  simp [List.getElem?_set, h]

theorem realloc_length (cells : List Byte) (size : Nat) (fresh : Nat → Byte) :
    (realloc cells size fresh).length = size := by
  simp [realloc]
  omega

theorem realloc_take (cells : List Byte) (size n : Nat) (fresh : Nat → Byte)
    (h1 : n ≤ cells.length) (h2 : n ≤ size) :
    (realloc cells size fresh).take n = cells.take n := by
  unfold realloc
  rw [List.take_append_of_le_length (by simp; omega)]
  rw [List.take_take]
  congr 1
  omega

theorem store_eq (b : Buffer) (i : Nat) (c : Byte) (h : i < b.cells.length) :
    store b i c = some { b with cells := b.cells.set i c } := by
  simp [store, h]

theorem isAlnum_false_iff (c : Byte) :
    isAlnum c = false ↔ (!isalpha c && !isdigit c) = true := by
  unfold isAlnum
  cases (!isalpha c && !isdigit c) <;> simp

theorem isAlnum_true_iff (c : Byte) :
    isAlnum c = true ↔ (!isalpha c && !isdigit c) = false := by
  unfold isAlnum
  cases (!isalpha c && !isdigit c) <;> simp

/-! ## One pass of the loop over a run of alphanumeric characters -/

theorem readLoop_run (heap : Heap) (tail : List Byte) :
    ∀ (run : List Byte), (∀ c ∈ run, isAlnum c = true) →
    ∀ (n : Nat) (b : Buffer) (k : Nat), b.sized → n < b.bufsize → 2 ≤ b.bufsize →
    ∃ (n1 : Nat) (sub : List Byte) (b1 : Buffer) (k1 : Nat),
      readLoop heap (run ++ tail) n b k = readLoop heap tail n1 b1 k1 ∧
      n1 = n + sub.length ∧ b1.sized ∧ n1 < b1.bufsize ∧ b.bufsize ≤ b1.bufsize ∧
      sub.Sublist run ∧ (run ≠ [] → 0 < n1) ∧
      b1.cells.take n1 = b.cells.take n ++ sub ∧
      ((n + run.length < b.bufsize ∨ heap.neverFails) → sub = run ∧ (n + run.length < b.bufsize → b1.bufsize = b.bufsize ∧ k1 = k)) := by
  intro run
  induction run with
  | nil =>
    intro _ n b k hs hn h2
    exact ⟨n, [], b, k, by simp, by simp, hs, hn, Nat.le_refl _, List.Sublist.refl _,
      by simp, by simp, by simp⟩
  | cons c run ih =>
    intro hal n b k hs hn h2
    have hc : (!isalpha c && !isdigit c) = false :=
      (isAlnum_true_iff c).1 (hal c (List.mem_cons_self _ _))
    have hal1 : ∀ x ∈ run, isAlnum x = true := fun x hx => hal x (List.mem_cons_of_mem _ hx)
    unfold Buffer.sized at hs
    by_cases hlt : n + 1 < b.bufsize
    · -- the character fits
      have hst : store b n c = some { b with cells := b.cells.set n c } :=
        store_eq b n c (by omega)
      obtain ⟨n1, sub, b1, k1, heq, hn1, hs1, hlt1, hle1, hsub, _, htake, hfull⟩ :=
        ih hal1 (n + 1) { b with cells := b.cells.set n c } k
          (by simp [Buffer.sized, hs]) hlt h2
      refine ⟨n1, c :: sub, b1, k1, ?_, ?_, hs1, hlt1, hle1, ?_, ?_, ?_, ?_⟩
      · simp only [List.cons_append, readLoop, hc, hlt, hst]
        simpa using heq
      · simp [hn1]; omega
      · exact hsub.cons₂ c
      · intro _; omega
      · rw [htake]
        simp [take_set_succ b.cells n c (by omega)]
      · intro h
        have h1 : n + 1 + run.length < b.bufsize ∨ heap.neverFails := by
          rcases h with h | h
          · left; simp at h; omega
          · right; exact h
        obtain ⟨e1, e2⟩ := hfull h1
        refine ⟨by rw [e1], ?_⟩
        intro h3
        exact e2 (by simp at h3 ⊢; omega)
    · -- the buffer is full but for the terminator: expand
      cases hk : heap k with
      | some fresh =>
        have hex : expand heap k b =
            (1, { cells := realloc b.cells (b.bufsize * 2) fresh, bufsize := b.bufsize * 2 }) := by
          simp [expand, hk]
        have hlen : (realloc b.cells (b.bufsize * 2) fresh).length = b.bufsize * 2 :=
          realloc_length _ _ _
        obtain ⟨n1, sub, b1, k1, heq, hn1, hs1, hlt1, hle1, hsub, _, htake, hfull⟩ :=
          ih hal1 (n + 1)
            { cells := (realloc b.cells (b.bufsize * 2) fresh).set n c, bufsize := b.bufsize * 2 }
            (k + 1) (by simp [Buffer.sized, hlen]) (by simp; omega) (by simp; omega)
        refine ⟨n1, c :: sub, b1, k1, ?_, ?_, hs1, hlt1, ?_, ?_, ?_, ?_, ?_⟩
        · simp only [List.cons_append, readLoop, hc, hlt, hex]
          simp [store, hlen, show n < b.bufsize * 2 by omega]
          simpa using heq
        · simp [hn1]; omega
        · simp at hle1; omega
        · exact hsub.cons₂ c
        · intro _; omega
        · rw [htake]
          simp [take_set_succ _ n c (show n < (realloc b.cells (b.bufsize * 2) fresh).length by omega),
            realloc_take b.cells (b.bufsize * 2) n fresh (by omega) (by omega)]
        · intro h
          have hnf : heap.neverFails := by
            rcases h with h | h
            · simp at h; omega
            · exact h
          obtain ⟨e1, _⟩ := hfull (Or.inr hnf)
          refine ⟨by rw [e1], ?_⟩
          intro h3
          simp at h3; omega
      | none =>
        have hex : expand heap k b = (0, b) := by simp [expand, hk]
        obtain ⟨n1, sub, b1, k1, heq, hn1, hs1, hlt1, hle1, hsub, _, htake, hfull⟩ :=
          ih hal1 n b (k + 1) hs hn h2
        refine ⟨n1, sub, b1, k1, ?_, hn1, hs1, hlt1, hle1, ?_, ?_, htake, ?_⟩
        · simp only [List.cons_append, readLoop, hc, hlt, hex]
          simp [show n ≠ b.bufsize by omega]
          exact heq
        · exact hsub.cons c
        · intro _; omega
        · intro h
          exfalso
          rcases h with h | h
          · simp at h; omega
          · have := h k
            simp [hk] at this

/-! ## One call of `getNextSym` -/

theorem getNextSym_eof (heap : Heap) (st : State) (h : st.stream = []) :
    getNextSym heap st = some ⟨0, 0, st⟩ := by
  cases st with
  | mk stream buf allocs =>
    simp only at h
    subst h
    simp [getNextSym, readLoop]

theorem getNextSym_delim (heap : Heap) (d : Byte) (rest : List Byte) (b : Buffer) (k : Nat)
    (hd : isAlnum d = false) (h2 : 2 ≤ b.cells.length) :
    getNextSym heap ⟨d :: rest, b, k⟩ =
      some ⟨1, 1, ⟨rest, { b with cells := (b.cells.set 0 d).set 1 0 }, k⟩⟩ := by
  have hc := (isAlnum_false_iff d).1 hd
  simp [getNextSym, readLoop, hc, store, show 0 < b.cells.length by omega,
    show 1 < b.cells.length by omega]

theorem getNextSym_run (heap : Heap) (run tail : List Byte) (b : Buffer) (k : Nat)
    (hal : ∀ c ∈ run, isAlnum c = true) (hne : run ≠ [])
    (htail : tail = [] ∨ ∃ d rest, tail = d :: rest ∧ isAlnum d = false)
    (hs : b.sized) (h2 : 2 ≤ b.bufsize) :
    ∃ (sub : List Byte) (b1 : Buffer) (k1 : Nat),
      getNextSym heap ⟨run ++ tail, b, k⟩ = some ⟨1, sub.length, ⟨tail, b1, k1⟩⟩ ∧
      b1.sized ∧ b.bufsize ≤ b1.bufsize ∧ sub.length < b1.bufsize ∧ sub ≠ [] ∧
      sub.Sublist run ∧ b1.cells.take sub.length = sub ∧ b1.cells[sub.length]? = some 0 ∧
      ((run.length < b.bufsize ∨ heap.neverFails) →
        sub = run ∧ (run.length < b.bufsize → b1.bufsize = b.bufsize ∧ k1 = k)) := by
  obtain ⟨n1, sub, b1, k1, heq, hn1, hs1, hlt1, hle1, hsub, hpos, htake, hfull⟩ :=
    readLoop_run heap tail run hal 0 b k hs (by omega) h2
  have hn1 : n1 = sub.length := by simpa using hn1
  subst hn1
  have hpos := hpos hne
  have hlen : sub.length < b1.cells.length := by
    unfold Buffer.sized at hs1
    omega
  have hst : store b1 sub.length 0 = some { b1 with cells := b1.cells.set sub.length 0 } :=
    store_eq b1 _ 0 hlen
  refine ⟨sub, { b1 with cells := b1.cells.set sub.length 0 }, k1, ?_,
    by simpa [Buffer.sized] using hs1, hle1, hlt1, ?_, hsub, ?_, ?_, ?_⟩
  · unfold getNextSym
    simp only
    rw [heq]
    rcases htail with ht | ⟨d, rest, ht, hd⟩
    · subst ht
      simp [readLoop, hpos, hst]
    · subst ht
      have hc := (isAlnum_false_iff d).1 hd
      simp [readLoop, hpos, hst, hc]
  · intro h
    simp [h] at hpos
  · simp only
    rw [take_set_same, htake]
    simp
  · exact getElem?_set_same _ _ _ hlen
  · intro h
    have := hfull (by simpa using h)
    simpa using this

theorem leadRun_append_afterRun (s : List Byte) : leadRun s ++ afterRun s = s :=
  List.takeWhile_append_dropWhile _ _

theorem leadRun_alnum (s : List Byte) : ∀ c ∈ leadRun s, isAlnum c = true := by
  intro c hc
  exact (List.mem_takeWhile_imp hc)

theorem afterRun_head (s : List Byte) :
    afterRun s = [] ∨ ∃ d rest, afterRun s = d :: rest ∧ isAlnum d = false := by
  unfold afterRun
  induction s with
  | nil => simp
  | cons x xs ih =>
    by_cases hx : isAlnum x = true
    · simpa [List.dropWhile, hx] using ih
    · right
      refine ⟨x, xs, ?_, by simpa using hx⟩
      simp [List.dropWhile, hx]

theorem getNextSym_total (heap : Heap) (st : State) (hs : st.buf.sized)
    (h2 : 2 ≤ st.buf.bufsize) :
    ∃ r, getNextSym heap st = some r ∧ r.st.buf.sized ∧ st.buf.bufsize ≤ r.st.buf.bufsize ∧
      (st.stream = [] → r = ⟨0, 0, st⟩) ∧
      (st.stream ≠ [] → r.status = 1 ∧ r.len < r.st.buf.bufsize ∧
        r.st.buf.cells[r.len]? = some 0 ∧ (token r).length = r.len ∧ tokenShape (token r) ∧
        ∃ used, st.stream = used ++ r.st.stream ∧ used ≠ [] ∧ (token r).Sublist used ∧
          (heap.neverFails → token r = used) ∧
          ((∀ c ∈ used, isAlnum c = true) ∨ token r = used)) := by
  cases st with
  | mk stream b k =>
    simp only at hs h2
    cases stream with
    | nil =>
      exact ⟨⟨0, 0, ⟨[], b, k⟩⟩, getNextSym_eof heap _ rfl, hs, Nat.le_refl _,
        fun _ => rfl, fun h => absurd rfl h⟩
    | cons c rest =>
      by_cases hc : isAlnum c = true
      · -- an alphanumeric run starts here
        have hne : leadRun (c :: rest) ≠ [] := by
          simp [leadRun, List.takeWhile, hc]
        obtain ⟨sub, b1, k1, heq, hs1, hle1, hlt1, hsne, hsub, htake, hterm, hfull⟩ :=
          getNextSym_run heap (leadRun (c :: rest)) (afterRun (c :: rest)) b k
            (leadRun_alnum _) hne (afterRun_head _) hs h2
        rw [leadRun_append_afterRun] at heq
        have hlen : sub.length ≤ b1.cells.length := by
          unfold Buffer.sized at hs1
          omega
        refine ⟨_, heq, hs1, hle1, fun h => by simp at h, fun _ => ?_⟩
        refine ⟨rfl, hlt1, hterm, ?_, ?_, leadRun (c :: rest), ?_, hne, ?_, ?_,
          Or.inl (leadRun_alnum _)⟩
        · simp [token, hlen]
        · left
          simp only [token, htake]
          exact ⟨hsne, fun x hx => leadRun_alnum _ x (hsub.subset hx)⟩
        · exact (leadRun_append_afterRun _).symm
        · simpa [token, htake] using hsub
        · intro hnf
          simp only [token, htake]
          exact (hfull (Or.inr hnf)).1
      · -- a character that is not alphanumeric: a token of its own
        have hd : isAlnum c = false := by simpa using hc
        have hlen : 2 ≤ b.cells.length := by
          unfold Buffer.sized at hs
          omega
        refine ⟨_, getNextSym_delim heap c rest b k hd hlen, by simpa [Buffer.sized] using hs,
          Nat.le_refl _, fun h => by simp at h, fun _ => ?_⟩
        have htok : ((b.cells.set 0 c).set 1 0).take 1 = [c] := by
          cases hb : b.cells with
          | nil => simp [hb] at hlen
          | cons x xs => simp
        refine ⟨rfl, by simpa using h2, ?_, ?_, ?_, [c], rfl, by simp, ?_, ?_,
          Or.inr (by simp [token, htok])⟩
        · exact getElem?_set_same _ 1 0 (by simpa using hlen)
        · simp [token, htok]
        · right
          exact ⟨c, by simp [token, htok], hd⟩
        · simp [token, htok]
        · intro _
          simp [token, htok]

/-! ## Calling until 0 is returned -/

theorem symbols_spec (heap : Heap) :
    ∀ (fuel : Nat) (st : State), st.buf.sized → 2 ≤ st.buf.bufsize → st.stream.length < fuel →
    ∃ toks fin, symbols heap fuel st = some (toks, fin) ∧ fin.stream = [] ∧
      fin.buf.sized ∧ st.buf.bufsize ≤ fin.buf.bufsize ∧
      toks.flatten.Sublist st.stream ∧ (heap.neverFails → toks.flatten = st.stream) ∧
      (∀ t ∈ toks, tokenShape t) ∧ toks.length ≤ st.stream.length ∧
      toks.flatten.filter (fun c => !isAlnum c) = st.stream.filter (fun c => !isAlnum c) := by
  intro fuel
  induction fuel with
  | zero => intro st _ _ h; omega
  | succ fuel ih =>
    intro st hs h2 hfuel
    obtain ⟨r, hr, hs1, hle1, hnil, hcons⟩ := getNextSym_total heap st hs h2
    by_cases hst : st.stream = []
    · have := hnil hst
      subst this
      refine ⟨[], st, ?_, hst, hs, Nat.le_refl _, by simp, by simp [hst], by simp, by simp,
        by simp [hst]⟩
      simp [symbols, hr]
    · obtain ⟨hstat, _, _, _, hshape, used, hused, hune, hsub, hfull, hkeep⟩ := hcons hst
      have hlen : r.st.stream.length < fuel := by
        have h1 : st.stream.length = used.length + r.st.stream.length := by
          rw [hused]; simp
        have h3 : 0 < used.length := List.length_pos.2 hune
        omega
      obtain ⟨toks, fin, hsym, hfin, hfs, hfle, hsubs, hall, hshapes, hcount, hfilt⟩ :=
        ih r.st hs1 (by omega) hlen
      refine ⟨token r :: toks, fin, ?_, hfin, hfs, by omega, ?_, ?_, ?_, ?_, ?_⟩
      · simp [symbols, hr, hstat, hsym]
      · rw [hused]
        simpa using List.Sublist.append hsub hsubs
      · intro hnf
        rw [hused, List.flatten_cons, hfull hnf, hall hnf]
      · intro t ht
        rcases List.mem_cons.1 ht with h | h
        · subst h; exact hshape
        · exact hshapes t h
      · have h1 : st.stream.length = used.length + r.st.stream.length := by
          rw [hused]; simp
        have h3 : 0 < used.length := List.length_pos.2 hune
        simp only [List.length_cons]
        omega
      · rw [hused, List.flatten_cons, List.filter_append, List.filter_append, hfilt]
        congr 1
        rcases hkeep with hk | hk
        · have h1 : used.filter (fun c => !isAlnum c) = [] := by
            rw [List.filter_eq_nil_iff]
            intro c hc
            simp [hk c hc]
          have h2 : (token r).filter (fun c => !isAlnum c) = [] := by
            rw [List.filter_eq_nil_iff]
            intro c hc
            simp [hk c (hsub.subset hc)]
          rw [h1, h2]
        · rw [hk]

/-! ## The buffer read as a C string -/

theorem cstr_of_terminated (cells : List Byte) :
    ∀ (n : Nat) (t : List Byte), cells.take n = t → cells[n]? = some 0 →
      (∀ c ∈ t, c ≠ 0) → cstr cells = some t := by
  induction cells with
  | nil => intro n t _ h; simp at h
  | cons x xs ih =>
    intro n t htake hterm hnz
    cases n with
    | zero =>
      simp at htake hterm
      subst htake
      simp [cstr, hterm]
    | succ m =>
      simp at htake hterm
      subst htake
      have hx : x ≠ 0 := hnz x (by simp)
      have := ih m (xs.take m) rfl hterm (fun c hc => hnz c (by simp [hc]))
      simp [cstr, hx, this]

theorem isAlnum_ne_zero (c : Byte) (h : isAlnum c = true) : c ≠ 0 := by
  intro h0
  subst h0
  revert h
  decide

theorem symbols_nil (heap : Heap) (fuel : Nat) (b : Buffer) (k : Nat) :
    symbols heap (fuel + 1) ⟨[], b, k⟩ = some ([], ⟨[], b, k⟩) := by
  simp [symbols, getNextSym_eof heap ⟨[], b, k⟩ rfl]

theorem symbols_cons_delim (heap : Heap) (fuel : Nat) (d : Byte) (rest : List Byte)
    (b : Buffer) (k : Nat) (hd : isAlnum d = false) (hs : b.sized) (h2 : 2 ≤ b.bufsize) :
    ∃ b1 : Buffer, b1.sized ∧ b1.bufsize = b.bufsize ∧
      symbols heap (fuel + 1) ⟨d :: rest, b, k⟩ =
        (symbols heap fuel ⟨rest, b1, k⟩).map fun p => ([d] :: p.1, p.2) := by
  have hlen : 2 ≤ b.cells.length := by
    unfold Buffer.sized at hs
    omega
  refine ⟨{ b with cells := (b.cells.set 0 d).set 1 0 }, by simpa [Buffer.sized] using hs, rfl, ?_⟩
  have htok : ((b.cells.set 0 d).set 1 0).take 1 = [d] := by
    cases hb : b.cells with
    | nil => simp [hb] at hlen
    | cons x xs => simp
  simp [symbols, getNextSym_delim heap d rest b k hd hlen, token, htok]

theorem symbols_cons_run (heap : Heap) (fuel : Nat) (run tail : List Byte) (b : Buffer) (k : Nat)
    (hal : ∀ c ∈ run, isAlnum c = true) (hne : run ≠ [])
    (htail : tail = [] ∨ ∃ d rest, tail = d :: rest ∧ isAlnum d = false)
    (hs : b.sized) (h2 : 2 ≤ b.bufsize) (hshort : run.length < b.bufsize) :
    ∃ b1 : Buffer, b1.sized ∧ b1.bufsize = b.bufsize ∧
      symbols heap (fuel + 1) ⟨run ++ tail, b, k⟩ =
        (symbols heap fuel ⟨tail, b1, k⟩).map fun p => (run :: p.1, p.2) := by
  obtain ⟨sub, b1, k1, heq, hs1, _, _, _, _, htake, _, hfull⟩ :=
    getNextSym_run heap run tail b k hal hne htail hs h2
  obtain ⟨e1, e2⟩ := hfull (Or.inl hshort)
  obtain ⟨e3, e4⟩ := e2 hshort
  subst e1 e4
  refine ⟨b1, hs1, e3, ?_⟩
  simp [symbols, heq, token, htake]

theorem mainLoop_eq_symbols (heap : Heap) (sym1 sym2 : List Byte) :
    ∀ (fuel : Nat) (st : State), st.buf.sized → 2 ≤ st.buf.bufsize →
      (∀ c ∈ st.stream, c ≠ 0) →
      mainLoop heap sym1 sym2 fuel st =
        (symbols heap fuel st).map fun p =>
          ((p.1.map fun t => if t = sym1 then sym2 else t).flatten, p.2) := by
  intro fuel
  induction fuel with
  | zero => intro st _ _ _; simp [mainLoop, symbols]
  | succ fuel ih =>
    intro st hs h2 hz
    obtain ⟨r, hr, hs1, hle1, hnil, hcons⟩ := getNextSym_total heap st hs h2
    by_cases hst : st.stream = []
    · have := hnil hst
      subst this
      simp [mainLoop, symbols, hr]
    · obtain ⟨hstat, _, hterm, hlen, hshape, used, hused, _, hsub, _, _⟩ := hcons hst
      have hz1 : ∀ c ∈ r.st.stream, c ≠ 0 := fun c hc => hz c (by rw [hused]; simp [hc])
      have hzt : ∀ c ∈ token r, c ≠ 0 :=
        fun c hc => hz c (by rw [hused]; simp [hsub.subset hc])
      have hcs : cstr r.st.buf.cells = some (token r) :=
        cstr_of_terminated _ r.len (token r) rfl hterm hzt
      have := ih r.st hs1 (by omega) hz1
      simp only [mainLoop, symbols, hr, hstat, hcs, this]
      cases symbols heap fuel r.st <;> simp

/-! ## The values `getNextSym` returns -/

theorem store_eq_some (b b1 : Buffer) (i : Nat) (c : Byte) (h : store b i c = some b1) :
    i < b.cells.length ∧ b1 = { b with cells := b.cells.set i c } := by
  unfold store at h
  split at h
  · rename_i hi
    exact ⟨hi, by simpa using h.symm⟩
  · simp at h

theorem readLoop_status (heap : Heap) :
    ∀ (s : List Byte) (n : Nat) (b : Buffer) (k : Nat) (r : Result),
      readLoop heap s n b k = some r →
      (r.status = 0 ∨ r.status = 1) ∧
      (r.status = 1 → 1 ≤ r.len ∧ r.st.buf.cells[r.len]? = some 0) := by
  intro s
  induction s with
  | nil =>
    intro n b k r h
    unfold readLoop at h
    split at h
    · rename_i hn
      obtain ⟨b1, hb1, hr⟩ := Option.map_eq_some'.1 h
      obtain ⟨hi, e⟩ := store_eq_some _ _ _ _ hb1
      subst hr e
      exact ⟨Or.inr rfl, fun _ => ⟨hn, getElem?_set_same _ _ _ hi⟩⟩
    · simp at h
      subst h
      exact ⟨Or.inl rfl, fun h => by simp at h⟩
  | cons c rest ih =>
    intro n b k r h
    unfold readLoop at h
    split at h
    · split at h
      · rename_i hn
        obtain ⟨b1, hb1, hr⟩ := Option.map_eq_some'.1 h
        obtain ⟨hi, e⟩ := store_eq_some _ _ _ _ hb1
        subst hr e
        exact ⟨Or.inr rfl, fun _ => ⟨hn, getElem?_set_same _ _ _ hi⟩⟩
      · obtain ⟨b0, hb0, h1⟩ := Option.bind_eq_some.1 h
        obtain ⟨b1, hb1, hr⟩ := Option.map_eq_some'.1 h1
        obtain ⟨hi, e⟩ := store_eq_some _ _ _ _ hb1
        subst hr e
        exact ⟨Or.inr rfl, fun _ => ⟨Nat.le_refl _, getElem?_set_same _ _ _ hi⟩⟩
    · split at h
      · obtain ⟨b1, _, h1⟩ := Option.bind_eq_some.1 h
        exact ih _ _ _ _ h1
      · simp only at h
        split at h
        · obtain ⟨b1, _, h1⟩ := Option.bind_eq_some.1 h
          exact ih _ _ _ _ h1
        · split at h
          · obtain ⟨b1, _, hr⟩ := Option.map_eq_some'.1 h
            subst hr
            exact ⟨Or.inl rfl, fun h => by simp at h⟩
          · exact ih _ _ _ _ h

/-! ## The claims -/

/-- C1 (losslessness): with a buffer of capacity at least 2 and every growth
succeeding, calling `getNextSym` until it returns 0 ends, and the tokens it
produced, concatenated in order, are the input. -/
theorem symbols_lossless (heap : Heap) (input : List Byte) (b : Buffer) (k fuel : Nat)
    (hheap : heap.neverFails) (hs : b.sized) (h2 : 2 ≤ b.bufsize)
    (hfuel : input.length < fuel) :
    ∃ toks fin, symbols heap fuel ⟨input, b, k⟩ = some (toks, fin) ∧ fin.stream = [] ∧
      toks.flatten = input := by
  obtain ⟨toks, fin, hsym, hfin, _, _, _, hall, _⟩ :=
    symbols_spec heap fuel ⟨input, b, k⟩ hs h2 hfuel
  exact ⟨toks, fin, hsym, hfin, hall hheap⟩

/-- C1 at capacity 2 on the input `>>text3.txt`. -/
theorem symbols_lossless_witness :
    ∃ toks fin,
      symbols (heapOk 0) 12 ⟨[62, 62, 116, 101, 120, 116, 51, 46, 116, 120, 116], mkBuffer 2 0, 0⟩
        = some (toks, fin) ∧ fin.stream = [] ∧
      toks.flatten = [62, 62, 116, 101, 120, 116, 51, 46, 116, 120, 116] :=
  symbols_lossless (heapOk 0) [62, 62, 116, 101, 120, 116, 51, 46, 116, 120, 116]
    (mkBuffer 2 0) 0 12 (fun _ => rfl) (by decide) (by decide) (by decide)

/-- C2 (a maximal alphanumeric run is one token): with capacity at least 2 and
every growth succeeding, on an input that starts with a non-empty run of
alphanumeric characters followed by end of input or by a character that is not
alphanumeric, one call returns 1, the characters stored before the terminator
are the whole run, the buffer read as a C string is the run, and the unread
stream is what follows the run. -/
theorem run_is_one_token (heap : Heap) (run tail : List Byte) (b : Buffer) (k : Nat)
    (hheap : heap.neverFails) (hs : b.sized) (h2 : 2 ≤ b.bufsize)
    (hne : run ≠ []) (hal : ∀ c ∈ run, isAlnum c = true)
    (htail : tail = [] ∨ ∃ d rest, tail = d :: rest ∧ isAlnum d = false) :
    ∃ r, getNextSym heap ⟨run ++ tail, b, k⟩ = some r ∧ r.status = 1 ∧ token r = run ∧
      cstr r.st.buf.cells = some run ∧ r.st.stream = tail := by
  obtain ⟨sub, b1, k1, heq, _, _, _, _, _, htake, hterm, hfull⟩ :=
    getNextSym_run heap run tail b k hal hne htail hs h2
  obtain ⟨e1, _⟩ := hfull (Or.inr hheap)
  subst e1
  refine ⟨_, heq, rfl, htake, ?_, rfl⟩
  exact cstr_of_terminated b1.cells sub.length sub htake hterm
    (fun c hc => isAlnum_ne_zero c (hal c hc))

/-- C2 at capacity 2 on the input `abcdef`: the single token `abcdef`. -/
theorem run_is_one_token_witness :
    ∃ r, getNextSym (heapOk 0) ⟨[97, 98, 99, 100, 101, 102] ++ [], mkBuffer 2 0, 0⟩ = some r ∧
      r.status = 1 ∧ token r = [97, 98, 99, 100, 101, 102] ∧
      cstr r.st.buf.cells = some [97, 98, 99, 100, 101, 102] ∧ r.st.stream = [] :=
  run_is_one_token (heapOk 0) [97, 98, 99, 100, 101, 102] [] (mkBuffer 2 0) 0
    (fun _ => rfl) (by decide) (by decide) (by decide) (by simp; decide) (Or.inl rfl)

/-- C3 (a character that is not alphanumeric is a token of its own): with
capacity at least 2, whatever the allocator does, when the next unread
character `d` is not alphanumeric one call returns 1, stores `d` in cell 0
and the terminator in cell 1, so that the token is the one character `d`, and
consumes exactly that character, leaving the recorded capacity alone.  Hence,
over a whole input, every token holding a character that is not alphanumeric is
that character alone, and the characters of the input that are not alphanumeric
are, in order, exactly those of the tokens. -/
theorem delimiter_is_own_token (heap : Heap) (d : Byte) (rest : List Byte) (b : Buffer)
    (k : Nat) (hd : isAlnum d = false) (hs : b.sized) (h2 : 2 ≤ b.bufsize) :
    (∃ r, getNextSym heap ⟨d :: rest, b, k⟩ = some r ∧ r.status = 1 ∧ r.len = 1 ∧
      token r = [d] ∧ r.st.buf.cells[0]? = some d ∧ r.st.buf.cells[1]? = some 0 ∧
      r.st.stream = rest ∧ r.st.buf.bufsize = b.bufsize) ∧
    (∀ (input : List Byte) (fuel : Nat), input.length < fuel →
      ∃ toks fin, symbols heap fuel ⟨input, b, k⟩ = some (toks, fin) ∧
        (∀ t ∈ toks, ∀ c ∈ t, isAlnum c = false → t = [c]) ∧
        toks.flatten.filter (fun c => !isAlnum c) = input.filter (fun c => !isAlnum c)) := by
  have hlen : 2 ≤ b.cells.length := by
    unfold Buffer.sized at hs
    omega
  constructor
  · refine ⟨_, getNextSym_delim heap d rest b k hd hlen, rfl, rfl, ?_, ?_, ?_, rfl, rfl⟩
    · cases hb : b.cells with
      | nil => simp [hb] at hlen
      | cons x xs => simp [token, hb]
    · cases hb : b.cells with
      | nil => simp [hb] at hlen
      | cons x xs =>
        cases xs with
        | nil => simp [hb] at hlen
        | cons y ys => simp
    · exact getElem?_set_same _ 1 0 (by simpa using hlen)
  · intro input fuel hfuel
    obtain ⟨toks, fin, hsym, _, _, _, _, _, hshape, _, hfilt⟩ :=
      symbols_spec heap fuel ⟨input, b, k⟩ hs h2 hfuel
    refine ⟨toks, fin, hsym, ?_, hfilt⟩
    intro t ht c hc hcn
    rcases hshape t ht with ⟨_, hall⟩ | ⟨e, he, _⟩
    · have := hall c hc
      simp [hcn] at this
    · subst he
      simp at hc
      subst hc
      rfl

/-- C3 on the input `.txt` with capacity 2 and an allocator that always fails. -/
theorem delimiter_is_own_token_witness :
    (∃ r, getNextSym heapFail ⟨46 :: [116, 120, 116], mkBuffer 2 0, 0⟩ = some r ∧
      r.status = 1 ∧ r.len = 1 ∧ token r = [46] ∧ r.st.buf.cells[0]? = some 46 ∧
      r.st.buf.cells[1]? = some 0 ∧ r.st.stream = [116, 120, 116] ∧
      r.st.buf.bufsize = (mkBuffer 2 0).bufsize) ∧
    (∀ (input : List Byte) (fuel : Nat), input.length < fuel →
      ∃ toks fin, symbols heapFail fuel ⟨input, mkBuffer 2 0, 0⟩ = some (toks, fin) ∧
        (∀ t ∈ toks, ∀ c ∈ t, isAlnum c = false → t = [c]) ∧
        toks.flatten.filter (fun c => !isAlnum c) = input.filter (fun c => !isAlnum c)) :=
  delimiter_is_own_token heapFail 46 [116, 120, 116] (mkBuffer 2 0) 0
    (by decide) (by decide) (by decide)

/-- C4 (pushback): with capacity at least 2, whatever the allocator does, on an
input `run ++ d :: rest` with `run` a non-empty sequence of alphanumeric
characters and `d` not alphanumeric, one call returns 1 and leaves `d :: rest`
unread; the next call returns 1 with the one-character token `d` and leaves
`rest` unread. -/
theorem delimiter_pushed_back (heap : Heap) (run : List Byte) (d : Byte) (rest : List Byte)
    (b : Buffer) (k : Nat) (hs : b.sized) (h2 : 2 ≤ b.bufsize)
    (hne : run ≠ []) (hal : ∀ c ∈ run, isAlnum c = true) (hd : isAlnum d = false) :
    ∃ r, getNextSym heap ⟨run ++ d :: rest, b, k⟩ = some r ∧ r.status = 1 ∧
      r.st.stream = d :: rest ∧ (heap.neverFails → token r = run) ∧
      ∃ r2, getNextSym heap r.st = some r2 ∧ r2.status = 1 ∧ token r2 = [d] ∧
        r2.st.stream = rest := by
  obtain ⟨sub, b1, k1, heq, hs1, hle1, _, _, _, htake, _, hfull⟩ :=
    getNextSym_run heap run (d :: rest) b k hal hne (Or.inr ⟨d, rest, rfl, hd⟩) hs h2
  have hlen : 2 ≤ b1.cells.length := by
    unfold Buffer.sized at hs1
    omega
  refine ⟨_, heq, rfl, rfl, ?_, _, getNextSym_delim heap d rest b1 k1 hd hlen, rfl, ?_, rfl⟩
  · intro hnf
    rw [← (hfull (Or.inr hnf)).1]
    exact htake
  · cases hb : b1.cells with
    | nil => simp [hb] at hlen
    | cons x xs => simp [token, hb]

/-- C4 on the input `text3.txt` with capacity 2. -/
theorem delimiter_pushed_back_witness :
    ∃ r, getNextSym (heapOk 0) ⟨[116, 101, 120, 116, 51] ++ 46 :: [116, 120, 116],
        mkBuffer 2 0, 0⟩ = some r ∧ r.status = 1 ∧
      r.st.stream = 46 :: [116, 120, 116] ∧
      (Heap.neverFails (heapOk 0) → token r = [116, 101, 120, 116, 51]) ∧
      ∃ r2, getNextSym (heapOk 0) r.st = some r2 ∧ r2.status = 1 ∧ token r2 = [46] ∧
        r2.st.stream = [116, 120, 116] :=
  delimiter_pushed_back (heapOk 0) [116, 101, 120, 116, 51] 46 [116, 120, 116]
    (mkBuffer 2 0) 0 (by decide) (by decide) (by decide) (by simp; decide) (by decide)

set_option maxRecDepth 100000 in
/-- C5 (growth failure in the middle of a run), the code at the input of the
claim: on `abcdef` with a buffer of capacity 3, where growth is first needed
once the buffer holds `ab`, and every growth failing, the call makes four
`realloc` attempts, returns 1 and not 0, leaves `ab` terminated in the buffer
and leaves nothing unread: `c`, `d`, `e`, `f` are read and dropped, none is
pushed back.  The same with the 80-character buffer of `main`: on 81 times `a`
followed by a full stop, the call returns 1 with a token of 79 characters, the
last two `a` are dropped and the full stop is the next unread character. -/
theorem growth_failure_returns_one :
    (getNextSym heapFail ⟨[97, 98, 99, 100, 101, 102], mkBuffer 3 0, 0⟩).map
        (fun r => (r.status, cstr r.st.buf.cells, r.st.stream, r.st.buf.bufsize, r.st.allocs))
      = some (1, some [97, 98], [], 3, 4) ∧
    (getNextSym heapFail ⟨List.replicate 81 97 ++ [46], mkBuffer 80 0, 0⟩).map
        (fun r => (r.status, cstr r.st.buf.cells, r.st.stream, r.st.buf.bufsize, r.st.allocs))
      = some (1, some (List.replicate 79 97), [46], 80, 2) := by
  constructor <;> decide

/-- C6 (`expand` is all or nothing): on a buffer whose block has the recorded
capacity, at least 1, `expand` returns non-zero exactly when the `realloc` call
succeeds; then the recorded capacity is twice the old one, the block has that
size and its first old-capacity characters are the old ones; when `realloc`
fails, `expand` returns 0 and the buffer, block and recorded capacity, is the
one before the call. -/
theorem expand_all_or_nothing (heap : Heap) (k : Nat) (b : Buffer) (hs : b.sized)
    (hcap : 1 ≤ b.bufsize) :
    ((expand heap k b).1 ≠ 0 ↔ (heap k).isSome = true) ∧
    ((heap k).isSome = true →
      (expand heap k b).2.bufsize = 2 * b.bufsize ∧ (expand heap k b).2.sized ∧
      b.bufsize < (expand heap k b).2.bufsize ∧
      (expand heap k b).2.cells.take b.bufsize = b.cells.take b.bufsize) ∧
    ((heap k).isSome = false → expand heap k b = (0, b)) := by
  unfold Buffer.sized at hs
  cases hk : heap k with
  | none => simp [expand, hk]
  | some fresh =>
    simp only [expand, hk, Buffer.sized]
    refine ⟨by simp, fun _ => ⟨by omega, realloc_length _ _ _, by omega, ?_⟩, by simp⟩
    exact realloc_take b.cells (b.bufsize * 2) b.bufsize fresh (by omega) (by omega)

/-- C6 on a buffer of capacity 2 holding `ab`, once with the allocator that
succeeds. -/
theorem expand_all_or_nothing_witness :
    ((expand (heapOk 0) 0 ⟨[97, 98], 2⟩).1 ≠ 0 ↔ (heapOk 0 0).isSome = true) ∧
    ((heapOk 0 0).isSome = true →
      (expand (heapOk 0) 0 ⟨[97, 98], 2⟩).2.bufsize = 2 * (⟨[97, 98], 2⟩ : Buffer).bufsize ∧
      (expand (heapOk 0) 0 ⟨[97, 98], 2⟩).2.sized ∧
      (⟨[97, 98], 2⟩ : Buffer).bufsize < (expand (heapOk 0) 0 ⟨[97, 98], 2⟩).2.bufsize ∧
      (expand (heapOk 0) 0 ⟨[97, 98], 2⟩).2.cells.take (⟨[97, 98], 2⟩ : Buffer).bufsize
        = (⟨[97, 98], 2⟩ : Buffer).cells.take (⟨[97, 98], 2⟩ : Buffer).bufsize) ∧
    ((heapOk 0 0).isSome = false → expand (heapOk 0) 0 ⟨[97, 98], 2⟩ = (0, ⟨[97, 98], 2⟩)) :=
  expand_all_or_nothing (heapOk 0) 0 ⟨[97, 98], 2⟩ (by decide) (by decide)

/-- C8 as stated fails on an input with a zero character: on `a`, zero, `b`
with the 80-character buffer, search string `x` and replacement `y`, the tokens
are `a`, the zero character and `b`, none equal to `x`, so the claim gives the
three input characters as output; the loop writes `ab`, because `%s` prints the
buffer up to its first zero. -/
theorem replace_or_copy_drops_zero_byte :
    (symbols (heapOk 0) 4 ⟨[97, 0, 98], mkBuffer 80 0, 0⟩).map
        (fun p => (p.1, (p.1.map fun t => if t = [120] then [121] else t).flatten))
      = some ([[97], [0], [98]], [97, 0, 98]) ∧
    (mainLoop (heapOk 0) [120] [121] 4 ⟨[97, 0, 98], mkBuffer 80 0, 0⟩).map (fun p => p.1)
      = some [97, 98] := by
  decide

/-- C8 amended (replace or copy, input free of zero characters): for every
input without a zero character, every search string `sym1` and replacement
`sym2`, every buffer of capacity at least 2 and whatever the allocator does,
the loop of `main` ends and what it has written is the concatenation, over the
tokens `getNextSym` produces in order, of `sym2` for each token equal to `sym1`
and of the token itself for every other token. -/
theorem replace_or_copy (heap : Heap) (input sym1 sym2 : List Byte) (b : Buffer)
    (k fuel : Nat) (hz : ∀ c ∈ input, c ≠ 0) (hs : b.sized) (h2 : 2 ≤ b.bufsize)
    (hfuel : input.length < fuel) :
    ∃ toks fin, symbols heap fuel ⟨input, b, k⟩ = some (toks, fin) ∧
      mainLoop heap sym1 sym2 fuel ⟨input, b, k⟩ =
        some ((toks.map fun t => if t = sym1 then sym2 else t).flatten, fin) := by
  obtain ⟨toks, fin, hsym, _⟩ := symbols_spec heap fuel ⟨input, b, k⟩ hs h2 hfuel
  refine ⟨toks, fin, hsym, ?_⟩
  rw [mainLoop_eq_symbols heap sym1 sym2 fuel ⟨input, b, k⟩ hs h2 hz, hsym]
  rfl

/-- C8 amended on the input `a.b a` with search string `a`, replacement `xy`
and the 80-character buffer. -/
theorem replace_or_copy_witness :
    ∃ toks fin, symbols (heapOk 0) 6 ⟨[97, 46, 98, 32, 97], mkBuffer 80 0, 0⟩ = some (toks, fin) ∧
      mainLoop (heapOk 0) [97] [120, 121] 6 ⟨[97, 46, 98, 32, 97], mkBuffer 80 0, 0⟩ =
        some ((toks.map fun t => if t = [97] then [120, 121] else t).flatten, fin) :=
  replace_or_copy (heapOk 0) [97, 46, 98, 32, 97] [97] [120, 121] (mkBuffer 80 0) 0 6
    (by simp) (by decide) (by decide) (by decide)

/-- C9 (`>>text3.txt`): with an 80-character buffer of any content and whatever
the allocator does, five calls of `getNextSym` return the tokens `>`, `>`,
`text3`, `.`, `txt` in this order, the sixth call returns 0, and so does any
call after it. -/
theorem text3_tokens (heap : Heap) (b : Buffer) (k : Nat) (hs : b.sized)
    (h80 : b.bufsize = 80) :
    ∃ fin, symbols heap 6 ⟨[62, 62, 116, 101, 120, 116, 51, 46, 116, 120, 116], b, k⟩ =
        some ([[62], [62], [116, 101, 120, 116, 51], [46], [116, 120, 116]], fin) ∧
      fin.stream = [] ∧ (getNextSym heap fin).map (fun r => r.status) = some 0 := by
  obtain ⟨b1, hs1, e1, q1⟩ := symbols_cons_delim heap 5 62
    [62, 116, 101, 120, 116, 51, 46, 116, 120, 116] b k (by decide) hs (by omega)
  obtain ⟨b2, hs2, e2, q2⟩ := symbols_cons_delim heap 4 62
    [116, 101, 120, 116, 51, 46, 116, 120, 116] b1 k (by decide) hs1 (by omega)
  obtain ⟨b3, hs3, e3, q3⟩ := symbols_cons_run heap 3 [116, 101, 120, 116, 51]
    [46, 116, 120, 116] b2 k (by simp; decide) (by simp)
    (Or.inr ⟨46, [116, 120, 116], rfl, by decide⟩) hs2 (by omega) (by simp; omega)
  obtain ⟨b4, hs4, e4, q4⟩ := symbols_cons_delim heap 2 46 [116, 120, 116] b3 k
    (by decide) hs3 (by omega)
  obtain ⟨b5, hs5, e5, q5⟩ := symbols_cons_run heap 1 [116, 120, 116] [] b4 k
    (by simp; decide) (by simp) (Or.inl rfl) hs4 (by omega) (by simp; omega)
  have t6 : symbols heap 1 ⟨[], b5, k⟩ = some ([], ⟨[], b5, k⟩) := symbols_nil heap 0 b5 k
  have t5 : symbols heap 2 ⟨[116, 120, 116], b4, k⟩ =
      some ([[116, 120, 116]], ⟨[], b5, k⟩) := by
    have h : symbols heap 2 ⟨[116, 120, 116], b4, k⟩ =
        (symbols heap 1 ⟨[], b5, k⟩).map fun p => ([116, 120, 116] :: p.1, p.2) := q5
    rw [h, t6]
    rfl
  have t4 : symbols heap 3 ⟨[46, 116, 120, 116], b3, k⟩ =
      some ([[46], [116, 120, 116]], ⟨[], b5, k⟩) := by
    have h : symbols heap 3 ⟨[46, 116, 120, 116], b3, k⟩ =
        (symbols heap 2 ⟨[116, 120, 116], b4, k⟩).map fun p => ([46] :: p.1, p.2) := q4
    rw [h, t5]
    rfl
  have t3 : symbols heap 4 ⟨[116, 101, 120, 116, 51, 46, 116, 120, 116], b2, k⟩ =
      some ([[116, 101, 120, 116, 51], [46], [116, 120, 116]], ⟨[], b5, k⟩) := by
    have h : symbols heap 4 ⟨[116, 101, 120, 116, 51, 46, 116, 120, 116], b2, k⟩ =
        (symbols heap 3 ⟨[46, 116, 120, 116], b3, k⟩).map
          fun p => ([116, 101, 120, 116, 51] :: p.1, p.2) := q3
    rw [h, t4]
    rfl
  have t2 : symbols heap 5 ⟨[62, 116, 101, 120, 116, 51, 46, 116, 120, 116], b1, k⟩ =
      some ([[62], [116, 101, 120, 116, 51], [46], [116, 120, 116]], ⟨[], b5, k⟩) := by
    have h : symbols heap 5 ⟨[62, 116, 101, 120, 116, 51, 46, 116, 120, 116], b1, k⟩ =
        (symbols heap 4 ⟨[116, 101, 120, 116, 51, 46, 116, 120, 116], b2, k⟩).map
          fun p => ([62] :: p.1, p.2) := q2
    rw [h, t3]
    rfl
  refine ⟨⟨[], b5, k⟩, ?_, rfl, ?_⟩
  · have h : symbols heap 6 ⟨[62, 62, 116, 101, 120, 116, 51, 46, 116, 120, 116], b, k⟩ =
        (symbols heap 5 ⟨[62, 116, 101, 120, 116, 51, 46, 116, 120, 116], b1, k⟩).map
          fun p => ([62] :: p.1, p.2) := q1
    rw [h, t2]
    rfl
  · rw [getNextSym_eof heap ⟨[], b5, k⟩ rfl]
    rfl

/-- C9 with the buffer filled with the character `x` and an allocator that
always fails. -/
theorem text3_tokens_witness :
    ∃ fin, symbols heapFail 6
        ⟨[62, 62, 116, 101, 120, 116, 51, 46, 116, 120, 116], mkBuffer 80 120, 0⟩ =
        some ([[62], [62], [116, 101, 120, 116, 51], [46], [116, 120, 116]], fin) ∧
      fin.stream = [] ∧ (getNextSym heapFail fin).map (fun r => r.status) = some 0 :=
  text3_tokens heapFail (mkBuffer 80 120) 0 (by decide) (by decide)

/-- C10 (end of input): on an exhausted stream, whatever the buffer holds,
whatever its recorded capacity and whatever the allocator does, `getNextSym`
returns 0, writes no terminator, and leaves the buffer, its recorded capacity
and the allocator untouched; so the empty input gives no token, at the first
call. -/
theorem eof_returns_zero (heap : Heap) (b : Buffer) (k fuel : Nat) :
    getNextSym heap ⟨[], b, k⟩ = some ⟨0, 0, ⟨[], b, k⟩⟩ ∧
    symbols heap (fuel + 1) ⟨[], b, k⟩ = some ([], ⟨[], b, k⟩) ∧
    symbols heap 1 ⟨[], b, k⟩ = some ([], ⟨[], b, k⟩) :=
  ⟨getNextSym_eof heap ⟨[], b, k⟩ rfl, symbols_nil heap fuel b k, symbols_nil heap 0 b k⟩

/-! ## The terminated string in the buffer -/

theorem cstr_of_zero (cells : List Byte) :
    ∀ (n : Nat), cells[n]? = some 0 → ∃ s, cstr cells = some s ∧ s.length ≤ n := by
  induction cells with
  | nil => intro n h; simp at h
  | cons x xs ih =>
    intro n h
    by_cases hx : x = 0
    · exact ⟨[], by simp [cstr, hx], by simp⟩
    · cases n with
      | zero =>
        simp at h
        exact absurd h hx
      | succ m =>
        simp at h
        obtain ⟨s, hs, hl⟩ := ih m h
        exact ⟨x :: s, by simp [cstr, hx, hs], by simpa using hl⟩

/-- C11 as stated fails at capacity 1: on the input `.` with a block of one
character recorded with capacity 1, the call stores the character at index 0
and then the terminator at index 1, which is not below the capacity: the store
is outside the block, whatever the allocator does. -/
theorem capacity_one_write_out_of_block :
    (mkBuffer 1 0).sized ∧ 1 ≤ (mkBuffer 1 0).bufsize ∧
    store (mkBuffer 1 0) 0 46 = some ⟨[46], 1⟩ ∧ store ⟨[46], 1⟩ 1 0 = none ∧
    getNextSym (heapOk 0) ⟨[46], mkBuffer 1 0, 0⟩ = none ∧
    getNextSym heapFail ⟨[46], mkBuffer 1 0, 0⟩ = none := by
  decide

/-- C11 amended (buffer invariant from capacity 2): starting from a block of
its recorded capacity, at least 2, for every input and every outcome of the
growth attempts, a call makes no store outside the block, the block keeps the
recorded capacity, the capacity never decreases and so stays at least 1, and a
call that returns 1 has written its terminator below the capacity, so that the
buffer holds a terminated string lying inside the block; the same holds for
the buffer left when the calls have been repeated until 0 is returned. -/
theorem token_inside_buffer (heap : Heap) (st : State) (fuel : Nat) (hs : st.buf.sized)
    (h2 : 2 ≤ st.buf.bufsize) (hfuel : st.stream.length < fuel) :
    (∃ r, getNextSym heap st = some r ∧ r.st.buf.sized ∧
      st.buf.bufsize ≤ r.st.buf.bufsize ∧ 1 ≤ r.st.buf.bufsize ∧
      (r.status = 1 → r.len < r.st.buf.bufsize ∧ r.st.buf.cells[r.len]? = some 0 ∧
        ∃ s, cstr r.st.buf.cells = some s ∧ s.length ≤ r.len)) ∧
    (∃ toks fin, symbols heap fuel st = some (toks, fin) ∧ fin.buf.sized ∧
      st.buf.bufsize ≤ fin.buf.bufsize ∧ 1 ≤ fin.buf.bufsize) := by
  constructor
  · obtain ⟨r, hr, hs1, hle, hnil, hcons⟩ := getNextSym_total heap st hs h2
    refine ⟨r, hr, hs1, hle, by omega, ?_⟩
    intro hstat
    by_cases hst : st.stream = []
    · have := hnil hst
      subst this
      simp at hstat
    · obtain ⟨_, hlt, hterm, _⟩ := hcons hst
      exact ⟨hlt, hterm, cstr_of_zero _ _ hterm⟩
  · obtain ⟨toks, fin, hsym, _, hfs, hfle, _⟩ := symbols_spec heap fuel st hs h2 hfuel
    exact ⟨toks, fin, hsym, hfs, hfle, by omega⟩

/-- C11 amended, with capacity 2 on the input `a.b` and every growth failing. -/
theorem token_inside_buffer_witness :
    (∃ r, getNextSym heapFail ⟨[97, 46, 98], mkBuffer 2 0, 0⟩ = some r ∧ r.st.buf.sized ∧
      (mkBuffer 2 0).bufsize ≤ r.st.buf.bufsize ∧ 1 ≤ r.st.buf.bufsize ∧
      (r.status = 1 → r.len < r.st.buf.bufsize ∧ r.st.buf.cells[r.len]? = some 0 ∧
        ∃ s, cstr r.st.buf.cells = some s ∧ s.length ≤ r.len)) ∧
    (∃ toks fin, symbols heapFail 4 ⟨[97, 46, 98], mkBuffer 2 0, 0⟩ = some (toks, fin) ∧
      fin.buf.sized ∧ (mkBuffer 2 0).bufsize ≤ fin.buf.bufsize ∧ 1 ≤ fin.buf.bufsize) :=
  token_inside_buffer heapFail ⟨[97, 46, 98], mkBuffer 2 0, 0⟩ 4 (by decide) (by decide)
    (by decide)

/-! ## The shape of a token, for any buffer -/

theorem take_one_set_set (l : List Byte) (c x : Byte) (h : 0 < l.length) :
    ((l.set 0 c).set 1 x).take 1 = [c] := by
  cases l with
  | nil => simp at h
  | cons y ys => simp

theorem readLoop_shape (heap : Heap) :
    ∀ (s : List Byte) (n : Nat) (b : Buffer) (k : Nat) (r : Result),
      readLoop heap s n b k = some r → r.status = 1 → n ≤ b.cells.length →
      (∀ c ∈ b.cells.take n, isAlnum c = true) →
      (∀ c ∈ token r, isAlnum c = true) ∨
        (n = 0 ∧ ∃ d, token r = [d] ∧ isAlnum d = false) := by
  intro s
  induction s with
  | nil =>
    intro n b k r h hstat _ hinv
    unfold readLoop at h
    split at h
    · obtain ⟨b1, hb1, hr⟩ := Option.map_eq_some'.1 h
      obtain ⟨_, e⟩ := store_eq_some _ _ _ _ hb1
      subst hr e
      left
      simpa [token, take_set_same] using hinv
    · simp at h
      subst h
      simp at hstat
  | cons c rest ih =>
    intro n b k r h hstat hn hinv
    unfold readLoop at h
    split at h
    · rename_i hc
      split at h
      · obtain ⟨b1, hb1, hr⟩ := Option.map_eq_some'.1 h
        obtain ⟨_, e⟩ := store_eq_some _ _ _ _ hb1
        subst hr e
        left
        simpa [token, take_set_same] using hinv
      · rename_i hn0
        obtain ⟨b0, hb0, h1⟩ := Option.bind_eq_some.1 h
        obtain ⟨b1, hb1, hr⟩ := Option.map_eq_some'.1 h1
        obtain ⟨hi0, e0⟩ := store_eq_some _ _ _ _ hb0
        obtain ⟨_, e1⟩ := store_eq_some _ _ _ _ hb1
        subst hr e1 e0
        right
        refine ⟨by omega, c, ?_, (isAlnum_false_iff c).2 hc⟩
        simp [token, take_one_set_set b.cells c 0 hi0]
    · rename_i hc
      have hca : isAlnum c = true := (isAlnum_true_iff c).2 (by simpa using hc)
      split at h
      · obtain ⟨b1, hb1, h1⟩ := Option.bind_eq_some.1 h
        obtain ⟨hi, e⟩ := store_eq_some _ _ _ _ hb1
        subst e
        have := ih (n + 1) _ k r h1 hstat (by simpa using hi) (by
          intro x hx
          simp only [take_set_succ b.cells n c hi, List.mem_append, List.mem_singleton] at hx
          rcases hx with hx | hx
          · exact hinv x hx
          · subst hx; exact hca)
        rcases this with h2 | ⟨h2, _⟩
        · exact Or.inl h2
        · omega
      · simp only at h
        cases hk : heap k with
        | some fresh =>
          have hex : expand heap k b =
              (1, { cells := realloc b.cells (b.bufsize * 2) fresh, bufsize := b.bufsize * 2 }) := by
            simp [expand, hk]
          rw [hex] at h
          simp only [ne_eq, one_ne_zero, not_false_eq_true, if_true] at h
          obtain ⟨b1, hb1, h1⟩ := Option.bind_eq_some.1 h
          obtain ⟨hi, e⟩ := store_eq_some _ _ _ _ hb1
          subst e
          simp only [realloc_length] at hi
          have hi1 : n < (realloc b.cells (b.bufsize * 2) fresh).length := by
            rw [realloc_length]; exact hi
          have := ih (n + 1) _ (k + 1) r h1 hstat (by simpa using hi1) (by
            intro x hx
            simp only [take_set_succ _ n c hi1,
              realloc_take b.cells (b.bufsize * 2) n fresh hn (by omega),
              List.mem_append, List.mem_singleton] at hx
            rcases hx with hx | hx
            · exact hinv x hx
            · subst hx; exact hca)
          rcases this with h2 | ⟨h2, _⟩
          · exact Or.inl h2
          · omega
        | none =>
          have hex : expand heap k b = (0, b) := by simp [expand, hk]
          rw [hex] at h
          simp only [ne_eq, not_true_eq_false, if_false] at h
          split at h
          · obtain ⟨b1, _, hr⟩ := Option.map_eq_some'.1 h
            subst hr
            simp at hstat
          · exact ih n b (k + 1) r h hstat hn hinv

/-- C12 as stated fails for the zero character: on an input whose next
character is zero, with the 80-character buffer filled with `x`, the call
returns 1 after storing one character and the terminator, and the buffer read
as a zero-terminated string is the empty string, of length 0. -/
theorem zero_byte_gives_empty_string :
    isAlnum 0 = false ∧
    (getNextSym (heapOk 0) ⟨[0, 97], mkBuffer 80 120, 0⟩).map
        (fun r => (r.status, r.len, token r)) = some (1, 1, [0]) ∧
    (getNextSym (heapOk 0) ⟨[0, 97], mkBuffer 80 120, 0⟩).map
        (fun r => (cstr r.st.buf.cells, r.st.stream)) = some (some [], [97]) := by
  refine ⟨by decide, by decide, by decide⟩

/-- C12 amended (token shape): for every input, every buffer and every outcome
of the growth attempts, a call that returns 1 has stored, before the terminator
it wrote, at least one character: either alphanumeric characters only, or
exactly one character that is not alphanumeric.  Unless that one character is
the zero character, the stored characters are the zero-terminated string the
buffer holds; for the zero character the buffer holds the empty string. -/
theorem token_shape (heap : Heap) (st : State) (r : Result)
    (h : getNextSym heap st = some r) (h1 : r.status = 1) :
    1 ≤ r.len ∧ r.st.buf.cells[r.len]? = some 0 ∧ (token r).length = r.len ∧
    tokenShape (token r) ∧
    (token r ≠ [0] → cstr r.st.buf.cells = some (token r)) ∧
    (token r = [0] → cstr r.st.buf.cells = some []) := by
  obtain ⟨_, hst⟩ := readLoop_status heap _ _ _ _ _ h
  obtain ⟨hlen, hterm⟩ := hst h1
  have hlt : r.len < r.st.buf.cells.length := by
    by_contra hge
    rw [List.getElem?_eq_none (by omega)] at hterm
    simp at hterm
  have htl : (token r).length = r.len := by
    simp [token]; omega
  have hshape := readLoop_shape heap _ _ _ _ _ h h1 (Nat.zero_le _) (by simp)
  have hne : token r ≠ [] := by
    intro h0
    rw [h0] at htl
    simp at htl
    omega
  refine ⟨hlen, hterm, htl, ?_, ?_, ?_⟩
  · rcases hshape with hal | ⟨_, d, hd, hdn⟩
    · exact Or.inl ⟨hne, hal⟩
    · exact Or.inr ⟨d, hd, hdn⟩
  · intro hnz
    apply cstr_of_terminated _ r.len (token r) rfl hterm
    intro c hc
    rcases hshape with hal | ⟨_, d, hd, _⟩
    · exact isAlnum_ne_zero c (hal c hc)
    · rw [hd] at hc hnz
      simp at hc
      subst hc
      intro h0
      exact hnz (by rw [h0])
  · intro hz
    unfold token at hz
    cases hcells : r.st.buf.cells with
    | nil => simp [hcells] at hlt
    | cons x xs =>
      rw [hcells] at hz
      have hpos : r.len = (r.len - 1) + 1 := by omega
      rw [hpos] at hz
      simp at hz
      simp [cstr, hz.1]

/-- C12 amended, on the input `.a` with a buffer of capacity 2. -/
theorem token_shape_witness :
    1 ≤ (⟨1, 1, ⟨[97], ⟨[46, 0], 2⟩, 0⟩⟩ : Result).len ∧
    (⟨1, 1, ⟨[97], ⟨[46, 0], 2⟩, 0⟩⟩ : Result).st.buf.cells[
      (⟨1, 1, ⟨[97], ⟨[46, 0], 2⟩, 0⟩⟩ : Result).len]? = some 0 ∧
    (token ⟨1, 1, ⟨[97], ⟨[46, 0], 2⟩, 0⟩⟩).length =
      (⟨1, 1, ⟨[97], ⟨[46, 0], 2⟩, 0⟩⟩ : Result).len ∧
    tokenShape (token ⟨1, 1, ⟨[97], ⟨[46, 0], 2⟩, 0⟩⟩) ∧
    (token ⟨1, 1, ⟨[97], ⟨[46, 0], 2⟩, 0⟩⟩ ≠ [0] →
      cstr (⟨1, 1, ⟨[97], ⟨[46, 0], 2⟩, 0⟩⟩ : Result).st.buf.cells =
        some (token ⟨1, 1, ⟨[97], ⟨[46, 0], 2⟩, 0⟩⟩)) ∧
    (token ⟨1, 1, ⟨[97], ⟨[46, 0], 2⟩, 0⟩⟩ = [0] →
      cstr (⟨1, 1, ⟨[97], ⟨[46, 0], 2⟩, 0⟩⟩ : Result).st.buf.cells = some []) :=
  token_shape (heapOk 0) ⟨[46, 97], mkBuffer 2 0, 0⟩ ⟨1, 1, ⟨[97], ⟨[46, 0], 2⟩, 0⟩⟩
    (by decide) (by decide)

/-! ## The tokens depend on the stream only, when growth succeeds -/

theorem getNextSym_first (heap : Heap) (hn : heap.neverFails) (st : State)
    (hs : st.buf.sized) (h2 : 2 ≤ st.buf.bufsize) (hne : st.stream ≠ []) :
    ∃ r, getNextSym heap st = some r ∧ r.status = 1 ∧ r.st.buf.sized ∧
      2 ≤ r.st.buf.bufsize ∧ r.st.stream.length < st.stream.length ∧
      token r = firstSym st.stream ∧
      r.st.stream = st.stream.drop (firstSym st.stream).length := by
  obtain ⟨r, hr, hs1, hle, _, hcons⟩ := getNextSym_total heap st hs h2
  obtain ⟨hstat, _, _, _, _, used, hused, hune, _, hfull, _⟩ := hcons hne
  have htok := hfull hn
  have hlen : r.st.stream.length < st.stream.length := by
    have h1 : st.stream.length = used.length + r.st.stream.length := by
      rw [hused]; simp
    have h3 : 0 < used.length := List.length_pos.2 hune
    omega
  have hfs : token r = firstSym st.stream := by
    cases st with
    | mk stream b k =>
      simp only at hne hs h2 hused ⊢
      cases stream with
      | nil => exact absurd rfl hne
      | cons c rest =>
        by_cases hc : isAlnum c = true
        · have hrne : leadRun (c :: rest) ≠ [] := by
            simp [leadRun, List.takeWhile, hc]
          obtain ⟨sub, b1, k1, heq, _, _, _, _, _, htake, _, hfull1⟩ :=
            getNextSym_run heap (leadRun (c :: rest)) (afterRun (c :: rest)) b k
              (leadRun_alnum _) hrne (afterRun_head _) hs h2
          rw [leadRun_append_afterRun] at heq
          rw [hr] at heq
          simp at heq
          subst heq
          simp only [firstSym, hc, if_true]
          rw [← (hfull1 (Or.inr hn)).1]
          simpa [token] using htake
        · have hd : isAlnum c = false := by simpa using hc
          have hlen2 : 2 ≤ b.cells.length := by
            unfold Buffer.sized at hs
            omega
          have heq := getNextSym_delim heap c rest b k hd hlen2
          rw [hr] at heq
          simp at heq
          subst heq
          simp [firstSym, hd, token, take_one_set_set b.cells c 0 (by omega)]
  refine ⟨r, hr, hstat, hs1, by omega, hlen, hfs, ?_⟩
  rw [← hfs, htok]
  conv => rhs; rw [hused]
  simp

theorem symbols_indep (heap heap1 : Heap) (hn : heap.neverFails) (hn1 : heap1.neverFails) :
    ∀ (fuel fuel1 : Nat) (st st1 : State), st1.stream = st.stream →
      st.buf.sized → 2 ≤ st.buf.bufsize → st1.buf.sized → 2 ≤ st1.buf.bufsize →
      st.stream.length < fuel → st.stream.length < fuel1 →
      (symbols heap fuel st).map Prod.fst = (symbols heap1 fuel1 st1).map Prod.fst := by
  intro fuel
  induction fuel with
  | zero => intro _ _ _ _ _ _ _ _ h _; omega
  | succ fuel ih =>
    intro fuel1 st st1 hst hs h2 hs1 h21 hf hf1
    cases fuel1 with
    | zero => omega
    | succ fuel1 =>
      by_cases hne : st.stream = []
      · have e := getNextSym_eof heap st hne
        have e1 := getNextSym_eof heap1 st1 (by rw [hst]; exact hne)
        simp [symbols, e, e1]
      · obtain ⟨r, hr, hstat, hrs, hr2, hrl, htok, hrest⟩ :=
          getNextSym_first heap hn st hs h2 hne
        obtain ⟨r1, hr1, hstat1, hrs1, hr21, hrl1, htok1, hrest1⟩ :=
          getNextSym_first heap1 hn1 st1 hs1 h21 (by rw [hst]; exact hne)
        rw [hst] at htok1 hrest1 hrl1
        have hsame : r1.st.stream = r.st.stream := by rw [hrest, hrest1]
        have := ih fuel1 r.st r1.st hsame hrs hr2 hrs1 hr21 (by omega) (by omega)
        simp only [symbols, hr, hr1, hstat, hstat1]
        simp only [one_ne_zero, if_false, Option.map_map]
        rw [htok, htok1]
        cases hA : symbols heap fuel r.st <;> cases hB : symbols heap1 fuel1 r1.st <;>
          simp [hA, hB] at this ⊢
        exact this

/-- C13 (idempotence of tokenization): with growth always succeeding, for every
input, tokenizing the concatenation of the tokens produced from the input
gives the same token sequence as the input gave.  The second pass may start
from any buffer of capacity at least 2, the one the first pass left or a new
one, and with any allocator that never fails. -/
theorem tokenize_idempotent (heap heap1 : Heap) (input : List Byte) (b b1 : Buffer)
    (k k1 fuel fuel1 : Nat) (hn : heap.neverFails) (hn1 : heap1.neverFails)
    (hs : b.sized) (h2 : 2 ≤ b.bufsize) (hs1 : b1.sized) (h21 : 2 ≤ b1.bufsize)
    (hfuel : input.length < fuel) (hfuel1 : input.length < fuel1) :
    ∃ toks fin, symbols heap fuel ⟨input, b, k⟩ = some (toks, fin) ∧
      ∃ fin1, symbols heap1 fuel1 ⟨toks.flatten, b1, k1⟩ = some (toks, fin1) := by
  obtain ⟨toks, fin, hsym, _, _, _, _, hall, _⟩ :=
    symbols_spec heap fuel ⟨input, b, k⟩ hs h2 hfuel
  have hflat : toks.flatten = input := hall hn
  obtain ⟨toks1, fin1, hsym1, _⟩ :=
    symbols_spec heap1 fuel1 ⟨input, b1, k1⟩ hs1 h21 hfuel1
  have hind := symbols_indep heap heap1 hn hn1 fuel fuel1 ⟨input, b, k⟩ ⟨input, b1, k1⟩ rfl
    hs h2 hs1 h21 hfuel hfuel1
  rw [hsym, hsym1] at hind
  simp at hind
  refine ⟨toks, fin, hsym, fin1, ?_⟩
  rw [hflat, hsym1, hind]

/-- C13 on the input `>>text3.txt`: first pass with capacity 2, second pass
with an 80-character buffer and another allocator. -/
theorem tokenize_idempotent_witness :
    ∃ toks fin,
      symbols (heapOk 0) 12 ⟨[62, 62, 116, 101, 120, 116, 51, 46, 116, 120, 116], mkBuffer 2 0, 0⟩
        = some (toks, fin) ∧
      ∃ fin1, symbols (heapOk 7) 12 ⟨toks.flatten, mkBuffer 80 120, 3⟩ = some (toks, fin1) :=
  tokenize_idempotent (heapOk 0) (heapOk 7) [62, 62, 116, 101, 120, 116, 51, 46, 116, 120, 116]
    (mkBuffer 2 0) (mkBuffer 80 120) 0 3 12 12 (fun _ => rfl) (fun _ => rfl)
    (by decide) (by decide) (by decide) (by decide) (by decide) (by decide)

/-! ## The loop variables after a prefix of alphanumeric characters -/

theorem readLoop_prefix (heap : Heap) :
    ∀ (pre : List Byte), (∀ c ∈ pre, isAlnum c = true) →
    ∀ (n : Nat) (b : Buffer) (k : Nat), b.sized → n < b.bufsize →
    ∃ (n1 : Nat) (b1 : Buffer) (k1 : Nat),
      (∀ tail, readLoop heap (pre ++ tail) n b k = readLoop heap tail n1 b1 k1) ∧
      b1.sized ∧ n1 < b1.bufsize ∧ b.bufsize ≤ b1.bufsize ∧ n ≤ n1 ∧
      n1 ≤ n + pre.length ∧ k ≤ k1 ∧ k1 ≤ k + pre.length := by
  intro pre
  induction pre with
  | nil =>
    intro _ n b k hs hn
    exact ⟨n, b, k, fun tail => by simp, hs, hn, Nat.le_refl _, Nat.le_refl _, by simp,
      Nat.le_refl _, by simp⟩
  | cons c pre ih =>
    intro hal n b k hs hn
    have hc : (!isalpha c && !isdigit c) = false :=
      (isAlnum_true_iff c).1 (hal c (List.mem_cons_self _ _))
    have hal1 : ∀ x ∈ pre, isAlnum x = true := fun x hx => hal x (List.mem_cons_of_mem _ hx)
    unfold Buffer.sized at hs
    by_cases hlt : n + 1 < b.bufsize
    · have hst : store b n c = some { b with cells := b.cells.set n c } :=
        store_eq b n c (by omega)
      obtain ⟨n1, b1, k1, heq, hs1, hlt1, hle1, hn1, hn2, hk1, hk2⟩ :=
        ih hal1 (n + 1) { b with cells := b.cells.set n c } k
          (by simp [Buffer.sized, hs]) hlt
      refine ⟨n1, b1, k1, ?_, hs1, hlt1, hle1, by omega, by simp; omega, hk1,
        by simp; omega⟩
      intro tail
      simp only [List.cons_append, readLoop, hc, hlt, hst]
      simpa using heq tail
    · cases hk : heap k with
      | some fresh =>
        have hex : expand heap k b =
            (1, { cells := realloc b.cells (b.bufsize * 2) fresh, bufsize := b.bufsize * 2 }) := by
          simp [expand, hk]
        have hlen : (realloc b.cells (b.bufsize * 2) fresh).length = b.bufsize * 2 :=
          realloc_length _ _ _
        obtain ⟨n1, b1, k1, heq, hs1, hlt1, hle1, hn1, hn2, hk1, hk2⟩ :=
          ih hal1 (n + 1)
            { cells := (realloc b.cells (b.bufsize * 2) fresh).set n c, bufsize := b.bufsize * 2 }
            (k + 1) (by simp [Buffer.sized, hlen]) (by simp; omega)
        refine ⟨n1, b1, k1, ?_, hs1, hlt1, by simp at hle1; omega, by omega, by simp; omega,
          by omega, by simp; omega⟩
        intro tail
        simp only [List.cons_append, readLoop, hc, hlt, hex]
        simp [store, hlen, show n < b.bufsize * 2 by omega]
        simpa using heq tail
      | none =>
        have hex : expand heap k b = (0, b) := by simp [expand, hk]
        obtain ⟨n1, b1, k1, heq, hs1, hlt1, hle1, hn1, hn2, hk1, hk2⟩ :=
          ih hal1 n b (k + 1) hs hn
        refine ⟨n1, b1, k1, ?_, hs1, hlt1, hle1, hn1, by simp; omega, by omega,
          by simp; omega⟩
        intro tail
        simp only [List.cons_append, readLoop, hc, hlt, hex]
        simp [show n ≠ b.bufsize by omega]
        exact heq tail

/-- C14 (0 means end of input, from capacity 2): for a buffer of capacity at
least 2, every input and every outcome of the growth attempts, the call
returns, and it returns 0 if and only if the stream is exhausted when the call
starts; when it returns 0 nothing is left unread, no terminator has been
written and the state is the one before the call.  The exit that pushes a
character back and returns 0 is never taken: after any number of alphanumeric
characters read in the call, `charsRead` is different from the capacity. -/
theorem zero_iff_exhausted (heap : Heap) (st : State) (hs : st.buf.sized)
    (h2 : 2 ≤ st.buf.bufsize) :
    (∃ r, getNextSym heap st = some r ∧ (r.status = 0 ↔ st.stream = []) ∧
      (r.status = 0 → r.st.stream = [] ∧ r.len = 0 ∧ r.st = st) ∧
      (r.status ≠ 0 → r.status = 1)) ∧
    (∀ pre : List Byte, (∀ c ∈ pre, isAlnum c = true) →
      ∃ (n1 : Nat) (b1 : Buffer) (k1 : Nat),
        (∀ tail, readLoop heap (pre ++ tail) 0 st.buf st.allocs = readLoop heap tail n1 b1 k1) ∧
        n1 ≠ b1.bufsize) := by
  constructor
  · obtain ⟨r, hr, _, _, hnil, hcons⟩ := getNextSym_total heap st hs h2
    refine ⟨r, hr, ?_, ?_, ?_⟩
    · constructor
      · intro h0
        by_contra hne
        have := (hcons hne).1
        omega
      · intro hnil1
        rw [hnil hnil1]
    · intro h0
      by_cases hne : st.stream = []
      · rw [hnil hne]
        exact ⟨hne, rfl, rfl⟩
      · have := (hcons hne).1
        omega
    · intro h0
      by_cases hne : st.stream = []
      · rw [hnil hne] at h0
        exact absurd rfl h0
      · exact (hcons hne).1
  · intro pre hpre
    obtain ⟨n1, b1, k1, heq, _, hlt, _⟩ :=
      readLoop_prefix heap pre hpre 0 st.buf st.allocs hs (by omega)
    exact ⟨n1, b1, k1, heq, by omega⟩

/-- C14 with capacity 2 on the input `abc.` and every growth failing. -/
theorem zero_iff_exhausted_witness :
    (∃ r, getNextSym heapFail ⟨[97, 98, 99, 46], mkBuffer 2 0, 0⟩ = some r ∧
      (r.status = 0 ↔ (⟨[97, 98, 99, 46], mkBuffer 2 0, 0⟩ : State).stream = []) ∧
      (r.status = 0 → r.st.stream = [] ∧ r.len = 0 ∧
        r.st = ⟨[97, 98, 99, 46], mkBuffer 2 0, 0⟩) ∧
      (r.status ≠ 0 → r.status = 1)) ∧
    (∀ pre : List Byte, (∀ c ∈ pre, isAlnum c = true) →
      ∃ (n1 : Nat) (b1 : Buffer) (k1 : Nat),
        (∀ tail, readLoop heapFail (pre ++ tail) 0
            (⟨[97, 98, 99, 46], mkBuffer 2 0, 0⟩ : State).buf
            (⟨[97, 98, 99, 46], mkBuffer 2 0, 0⟩ : State).allocs
          = readLoop heapFail tail n1 b1 k1) ∧
        n1 ≠ b1.bufsize) :=
  zero_iff_exhausted heapFail ⟨[97, 98, 99, 46], mkBuffer 2 0, 0⟩ (by decide) (by decide)

/-! ## A run when every growth fails -/

theorem readLoop_run_fail (heap : Heap) (hf : ∀ k, heap k = none) (tail : List Byte) :
    ∀ (run : List Byte), (∀ c ∈ run, isAlnum c = true) →
    ∀ (n : Nat) (b : Buffer) (k : Nat), b.sized → n < b.bufsize →
    ∃ (m : Nat) (b1 : Buffer),
      readLoop heap (run ++ tail) n b k =
        readLoop heap tail m b1 (k + (n + run.length - m)) ∧
      m = min (n + run.length) (b.bufsize - 1) ∧ b1.sized ∧ b1.bufsize = b.bufsize ∧
      b1.cells.take m = b.cells.take n ++ run.take (m - n) := by
  intro run
  induction run with
  | nil =>
    intro _ n b k hs hn
    refine ⟨n, b, ?_, ?_, hs, rfl, by simp⟩
    · simp
    · simp; omega
  | cons c run ih =>
    intro hal n b k hs hn
    have hc : (!isalpha c && !isdigit c) = false :=
      (isAlnum_true_iff c).1 (hal c (List.mem_cons_self _ _))
    have hal1 : ∀ x ∈ run, isAlnum x = true := fun x hx => hal x (List.mem_cons_of_mem _ hx)
    unfold Buffer.sized at hs
    by_cases hlt : n + 1 < b.bufsize
    · have hst : store b n c = some { b with cells := b.cells.set n c } :=
        store_eq b n c (by omega)
      obtain ⟨m, b1, heq, hm, hs1, hb1, htake⟩ :=
        ih hal1 (n + 1) { b with cells := b.cells.set n c } k
          (by simp [Buffer.sized, hs]) hlt
      simp only at hm hb1
      refine ⟨m, b1, ?_, ?_, hs1, hb1, ?_⟩
      · simp only [List.cons_append, readLoop, hc, hlt, hst]
        have e : k + (n + (c :: run).length - m) = k + (n + 1 + run.length - m) := by
          simp; omega
        rw [e]
        simpa using heq
      · simp; omega
      · rw [htake]
        have e : m - n = (m - (n + 1)) + 1 := by omega
        rw [e]
        simp [take_set_succ b.cells n c (by omega)]
    · have hex : expand heap k b = (0, b) := by simp [expand, hf k]
      obtain ⟨m, b1, heq, hm, hs1, hb1, htake⟩ := ih hal1 n b (k + 1) hs hn
      have hmn : m = n := by omega
      refine ⟨m, b1, ?_, ?_, hs1, hb1, ?_⟩
      · simp only [List.cons_append, readLoop, hc, hlt, hex]
        simp [show n ≠ b.bufsize by omega]
        have e : k + (n + (run.length + 1) - m) = k + 1 + (n + run.length - m) := by omega
        rw [e]
        exact heq
      · simp; omega
      · rw [htake, hmn]
        simp

/-- C15 (truncation when growth fails): with a buffer of capacity `n` at least
2 and every growth attempt failing, on an input that starts with a maximal
alphanumeric run of length at least `n`, one call returns 1, the token is the
first `n - 1` characters of the run, also as the C string in the buffer, the
unread stream is what follows the run, so the rest of the run has been read and
dropped, one failed `realloc` for each dropped character, and the capacity is
still `n`. -/
theorem truncation_when_growth_fails (heap : Heap) (run tail : List Byte) (b : Buffer)
    (k : Nat) (hf : ∀ j, heap j = none) (hs : b.sized) (h2 : 2 ≤ b.bufsize)
    (hal : ∀ c ∈ run, isAlnum c = true) (hlen : b.bufsize ≤ run.length)
    (htail : tail = [] ∨ ∃ d rest, tail = d :: rest ∧ isAlnum d = false) :
    ∃ r, getNextSym heap ⟨run ++ tail, b, k⟩ = some r ∧ r.status = 1 ∧
      token r = run.take (b.bufsize - 1) ∧
      cstr r.st.buf.cells = some (run.take (b.bufsize - 1)) ∧
      r.st.stream = tail ∧ r.st.buf.bufsize = b.bufsize ∧ r.st.buf.sized ∧
      r.st.allocs = k + (run.length - (b.bufsize - 1)) := by
  obtain ⟨m, b1, heq, hm, hs1, hb1, htake⟩ :=
    readLoop_run_fail heap hf tail run hal 0 b k hs (by omega)
  have hm1 : m = b.bufsize - 1 := by omega
  have hlen1 : m < b1.cells.length := by
    unfold Buffer.sized at hs1
    omega
  have hst : store b1 m 0 = some { b1 with cells := b1.cells.set m 0 } :=
    store_eq b1 m 0 hlen1
  have htk : (b1.cells.set m 0).take m = run.take (b.bufsize - 1) := by
    rw [take_set_same, htake, hm1]
    simp
  have hterm : (b1.cells.set m 0)[m]? = some 0 := getElem?_set_same _ _ _ hlen1
  have hcs : cstr (b1.cells.set m 0) = some (run.take (b.bufsize - 1)) :=
    cstr_of_terminated _ m _ htk hterm
      (fun c hc => isAlnum_ne_zero c (hal c (List.mem_of_mem_take hc)))
  have hpos : m > 0 := by omega
  refine ⟨⟨1, m, ⟨tail, { b1 with cells := b1.cells.set m 0 }, k + (0 + run.length - m)⟩⟩,
    ?_, rfl, htk, hcs, rfl, hb1, by simpa [Buffer.sized] using hs1, ?_⟩
  · unfold getNextSym
    simp only
    rw [heq]
    rcases htail with ht | ⟨d, rest, ht, hd⟩
    · subst ht
      simp [readLoop, hpos, hst]
    · subst ht
      have hc := (isAlnum_false_iff d).1 hd
      simp [readLoop, hpos, hst, hc]
  · simp only
    omega

/-- C15 with capacity 3 on the input `abcdef.x`: the token is `ab`. -/
theorem truncation_when_growth_fails_witness :
    ∃ r, getNextSym heapFail ⟨[97, 98, 99, 100, 101, 102] ++ [46, 120], mkBuffer 3 0, 0⟩
        = some r ∧ r.status = 1 ∧
      token r = [97, 98, 99, 100, 101, 102].take ((mkBuffer 3 0).bufsize - 1) ∧
      cstr r.st.buf.cells = some ([97, 98, 99, 100, 101, 102].take ((mkBuffer 3 0).bufsize - 1)) ∧
      r.st.stream = [46, 120] ∧ r.st.buf.bufsize = (mkBuffer 3 0).bufsize ∧ r.st.buf.sized ∧
      r.st.allocs = 0 + (([97, 98, 99, 100, 101, 102] : List Byte).length
        - ((mkBuffer 3 0).bufsize - 1)) :=
  truncation_when_growth_fails heapFail [97, 98, 99, 100, 101, 102] [46, 120] (mkBuffer 3 0) 0
    (fun _ => rfl) (by decide) (by decide) (by simp; decide) (by decide)
    (Or.inr ⟨46, [120], rfl, by decide⟩)

/-! ## The loop of `main` ends -/

theorem mainLoop_terminates (heap : Heap) (sym1 sym2 : List Byte) :
    ∀ (fuel : Nat) (st : State), st.buf.sized → 2 ≤ st.buf.bufsize → st.stream.length < fuel →
    ∃ out fin, mainLoop heap sym1 sym2 fuel st = some (out, fin) ∧ fin.stream = [] := by
  intro fuel
  induction fuel with
  | zero => intro st _ _ h; omega
  | succ fuel ih =>
    intro st hs h2 hfuel
    obtain ⟨r, hr, hs1, hle1, hnil, hcons⟩ := getNextSym_total heap st hs h2
    by_cases hst : st.stream = []
    · have := hnil hst
      subst this
      exact ⟨[], st, by simp [mainLoop, hr], hst⟩
    · obtain ⟨hstat, _, hterm, _, _, used, hused, hune, _⟩ := hcons hst
      have hlen : r.st.stream.length < fuel := by
        have h1 : st.stream.length = used.length + r.st.stream.length := by
          rw [hused]; simp
        have h3 : 0 < used.length := List.length_pos.2 hune
        omega
      obtain ⟨s, hcs, _⟩ := cstr_of_zero _ _ hterm
      obtain ⟨out, fin, hml, hfin⟩ := ih r.st hs1 (by omega) hlen
      exact ⟨(if s = sym1 then sym2 else s) ++ out, fin,
        by simp [mainLoop, hr, hstat, hcs, hml], hfin⟩

/-- C16 (writes in bounds from capacity 2 up): for a block of its recorded
capacity, at least 2, every input and every outcome of the growth attempts:
after any number of alphanumeric characters read in a call the block still has
the recorded capacity and `charsRead` is strictly below it; no call makes a
store outside the block, and the index of the terminator it writes is below
the capacity; and no call of a whole pass does. -/
theorem writes_in_bounds (heap : Heap) (b : Buffer) (k : Nat) (hs : b.sized)
    (h2 : 2 ≤ b.bufsize) :
    (∀ pre : List Byte, (∀ c ∈ pre, isAlnum c = true) →
      ∃ (n1 : Nat) (b1 : Buffer) (k1 : Nat),
        (∀ tail, readLoop heap (pre ++ tail) 0 b k = readLoop heap tail n1 b1 k1) ∧
        n1 < b1.bufsize ∧ b1.sized ∧ b.bufsize ≤ b1.bufsize) ∧
    (∀ input : List Byte, ∃ r, getNextSym heap ⟨input, b, k⟩ = some r ∧
      r.len < r.st.buf.bufsize ∧ r.st.buf.sized ∧ 2 ≤ r.st.buf.bufsize) ∧
    (∀ (input : List Byte) (fuel : Nat), input.length < fuel →
      (symbols heap fuel ⟨input, b, k⟩).isSome = true) := by
  refine ⟨?_, ?_, ?_⟩
  · intro pre hpre
    obtain ⟨n1, b1, k1, heq, hs1, hlt, hle, _⟩ :=
      readLoop_prefix heap pre hpre 0 b k hs (by omega)
    exact ⟨n1, b1, k1, heq, hlt, hs1, hle⟩
  · intro input
    obtain ⟨r, hr, hs1, hle, hnil, hcons⟩ := getNextSym_total heap ⟨input, b, k⟩ hs h2
    simp only at hle hnil hcons
    refine ⟨r, hr, ?_, hs1, by omega⟩
    by_cases hne : input = []
    · rw [hnil hne]
      simp only
      omega
    · exact (hcons hne).2.1
  · intro input fuel hfuel
    obtain ⟨toks, fin, hsym, _⟩ := symbols_spec heap fuel ⟨input, b, k⟩ hs h2 hfuel
    simp [hsym]

/-- C16 with the 80-character buffer of `main` and every growth failing. -/
theorem writes_in_bounds_witness :
    (∀ pre : List Byte, (∀ c ∈ pre, isAlnum c = true) →
      ∃ (n1 : Nat) (b1 : Buffer) (k1 : Nat),
        (∀ tail, readLoop heapFail (pre ++ tail) 0 (mkBuffer 80 0) 0
          = readLoop heapFail tail n1 b1 k1) ∧
        n1 < b1.bufsize ∧ b1.sized ∧ (mkBuffer 80 0).bufsize ≤ b1.bufsize) ∧
    (∀ input : List Byte, ∃ r, getNextSym heapFail ⟨input, mkBuffer 80 0, 0⟩ = some r ∧
      r.len < r.st.buf.bufsize ∧ r.st.buf.sized ∧ 2 ≤ r.st.buf.bufsize) ∧
    (∀ (input : List Byte) (fuel : Nat), input.length < fuel →
      (symbols heapFail fuel ⟨input, mkBuffer 80 0, 0⟩).isSome = true) :=
  writes_in_bounds heapFail (mkBuffer 80 0) 0 (by decide) (by decide)

/-- C17 (termination): for every finite input, every buffer of capacity at
least 2 and every outcome of the growth attempts, a call of `getNextSym`
returns, and when it returns 1 the unread stream is strictly shorter than
before; repeated until 0 is returned, at most `input.length` calls return 1,
and the loop of `main` ends within `input.length + 1` calls, the input read to
its end. -/
theorem driver_terminates (heap : Heap) (sym1 sym2 input : List Byte) (b : Buffer)
    (k : Nat) (hs : b.sized) (h2 : 2 ≤ b.bufsize) :
    (∃ r, getNextSym heap ⟨input, b, k⟩ = some r ∧
      (r.status = 1 → r.st.stream.length < input.length) ∧
      r.st.stream.length ≤ input.length) ∧
    (∃ toks fin, symbols heap (input.length + 1) ⟨input, b, k⟩ = some (toks, fin) ∧
      toks.length ≤ input.length ∧ fin.stream = []) ∧
    (∃ out fin, mainLoop heap sym1 sym2 (input.length + 1) ⟨input, b, k⟩ = some (out, fin) ∧
      fin.stream = []) := by
  refine ⟨?_, ?_, ?_⟩
  · obtain ⟨r, hr, _, _, hnil, hcons⟩ := getNextSym_total heap ⟨input, b, k⟩ hs h2
    simp only at hnil hcons
    by_cases hne : input = []
    · refine ⟨r, hr, ?_, ?_⟩
      · intro h1
        rw [hnil hne] at h1
        simp at h1
      · rw [hnil hne]
    · obtain ⟨_, _, _, _, _, used, hused, hune, _⟩ := hcons hne
      have h1 : input.length = used.length + r.st.stream.length := by
        conv => lhs; rw [hused]
        simp
      have h3 : 0 < used.length := List.length_pos.2 hune
      exact ⟨r, hr, fun _ => by omega, by omega⟩
  · obtain ⟨toks, fin, hsym, hfin, _, _, _, _, _, hcount, _⟩ :=
      symbols_spec heap (input.length + 1) ⟨input, b, k⟩ hs h2 (by simp)
    exact ⟨toks, fin, hsym, hcount, hfin⟩
  · exact mainLoop_terminates heap sym1 sym2 (input.length + 1) ⟨input, b, k⟩ hs h2 (by simp)

/-- C17 on the input `a.b` with capacity 2, every growth failing, search string
`a` and replacement `xy`. -/
theorem driver_terminates_witness :
    (∃ r, getNextSym heapFail ⟨[97, 46, 98], mkBuffer 2 0, 0⟩ = some r ∧
      (r.status = 1 → r.st.stream.length < ([97, 46, 98] : List Byte).length) ∧
      r.st.stream.length ≤ ([97, 46, 98] : List Byte).length) ∧
    (∃ toks fin, symbols heapFail (([97, 46, 98] : List Byte).length + 1)
        ⟨[97, 46, 98], mkBuffer 2 0, 0⟩ = some (toks, fin) ∧
      toks.length ≤ ([97, 46, 98] : List Byte).length ∧ fin.stream = []) ∧
    (∃ out fin, mainLoop heapFail [97] [120, 121] (([97, 46, 98] : List Byte).length + 1)
        ⟨[97, 46, 98], mkBuffer 2 0, 0⟩ = some (out, fin) ∧ fin.stream = []) :=
  driver_terminates heapFail [97] [120, 121] [97, 46, 98] (mkBuffer 2 0) 0
    (by decide) (by decide)

/-- C18 (a search string that is not shaped like a token never matches): for
every input without a zero character, when the search string is empty, or has
at least two characters one of which is not alphanumeric, then with growth
always succeeding and a buffer of capacity at least 2 the loop of `main` ends
and has written exactly the input, whatever the replacement string. -/
theorem no_match_copies_input (heap : Heap) (input sym1 sym2 : List Byte) (b : Buffer)
    (k fuel : Nat) (hn : heap.neverFails) (hz : ∀ c ∈ input, c ≠ 0)
    (hsym : sym1 = [] ∨ (2 ≤ sym1.length ∧ ∃ c ∈ sym1, isAlnum c = false))
    (hs : b.sized) (h2 : 2 ≤ b.bufsize) (hfuel : input.length < fuel) :
    ∃ fin, mainLoop heap sym1 sym2 fuel ⟨input, b, k⟩ = some (input, fin) := by
  obtain ⟨toks, fin, hsym1, _, _, _, _, hall, hshape, _⟩ :=
    symbols_spec heap fuel ⟨input, b, k⟩ hs h2 hfuel
  have hflat : toks.flatten = input := hall hn
  have hno : ∀ t ∈ toks, (if t = sym1 then sym2 else t) = t := by
    intro t ht
    have hne : t ≠ sym1 := by
      intro e
      subst e
      rcases hshape t ht with ⟨hne, hal⟩ | ⟨d, hd, _⟩
      · rcases hsym with h0 | ⟨_, c, hc, hcn⟩
        · exact hne h0
        · have := hal c hc
          simp [hcn] at this
      · rcases hsym with h0 | ⟨hl, _⟩
        · rw [h0] at hd
          simp at hd
        · rw [hd] at hl
          simp at hl
    simp [hne]
  have hmap : (toks.map fun t => if t = sym1 then sym2 else t) = toks := by
    conv => rhs; rw [← List.map_id toks]
    exact List.map_congr_left hno
  refine ⟨fin, ?_⟩
  rw [mainLoop_eq_symbols heap sym1 sym2 fuel ⟨input, b, k⟩ hs h2 hz, hsym1]
  simp only [Option.map_some', hmap, hflat]

/-- C18 on the input `a.b a.b` with the search string `a.b`, the replacement
`xy` and the 80-character buffer. -/
theorem no_match_copies_input_witness :
    ∃ fin, mainLoop (heapOk 0) [97, 46, 98] [120, 121] 8
        ⟨[97, 46, 98, 32, 97, 46, 98], mkBuffer 80 0, 0⟩
      = some ([97, 46, 98, 32, 97, 46, 98], fin) :=
  no_match_copies_input (heapOk 0) [97, 46, 98, 32, 97, 46, 98] [97, 46, 98] [120, 121]
    (mkBuffer 80 0) 0 8 (fun _ => rfl) (by simp) (Or.inr ⟨by decide, 46, by simp, by decide⟩)
    (by decide) (by decide) (by decide)

/-! ## Decimal digits written and read back -/

theorem decimalFuel_eq :
    ∀ (f1 f2 n : Nat), n < f1 → n < f2 → decimalFuel f1 n = decimalFuel f2 n := by
  intro f1
  induction f1 with
  | zero => intro _ _ h; omega
  | succ f1 ih =>
    intro f2 n h1 h2
    cases f2 with
    | zero => omega
    | succ f2 =>
      by_cases hn : n < 10
      · simp [decimalFuel, hn]
      · simp only [decimalFuel, hn, if_false]
        rw [ih f2 (n / 10) (by omega) (by omega)]

theorem decimal_lt_ten (n : Nat) (h : n < 10) : decimal n = [digitChar n] := by
  simp [decimal, decimalFuel, h]

theorem decimal_ge_ten (n : Nat) (h : 10 ≤ n) :
    decimal n = decimal (n / 10) ++ [digitChar (n % 10)] := by
  have hn : ¬ n < 10 := by omega
  have e1 : decimalFuel (n + 1) n = decimalFuel n (n / 10) ++ [digitChar (n % 10)] := by
    simp [decimalFuel, hn]
  unfold decimal
  rw [e1, decimalFuel_eq n (n / 10 + 1) (n / 10) (by omega) (by omega)]

theorem isdigit_digitChar (d : Nat) : isdigit (digitChar d) = true := by
  simp [isdigit, digitChar]
  omega

theorem digitChar_val (d : Nat) : (digitChar d).val - 48 = d % 10 := by
  simp [digitChar]

theorem isdigit_not_space_sign (c : Byte) (h : isdigit c = true) :
    isspace c = false ∧ c ≠ 45 ∧ c ≠ 43 := by
  simp only [isdigit, Bool.and_eq_true, decide_eq_true_eq] at h
  refine ⟨?_, ?_, ?_⟩
  · simp only [isspace, Bool.or_eq_false_iff, decide_eq_false_iff_not, Bool.and_eq_false_iff]
    omega
  · intro e
    subst e
    revert h
    decide
  · intro e
    subst e
    revert h
    decide

theorem scanDigits_decimal :
    ∀ (n v : Nat) (rest : List Byte),
      scanDigits (decimal n ++ rest) v = scanDigits rest (v * 10 ^ (decimal n).length + n) := by
  intro n
  induction n using Nat.strong_induction_on with
  | _ n ih =>
    intro v rest
    by_cases hn : n < 10
    · rw [decimal_lt_ten n hn]
      simp only [List.singleton_append, scanDigits, isdigit_digitChar, if_true, digitChar_val,
        List.length_singleton, pow_one]
      congr 1
      rw [Nat.mod_eq_of_lt hn]
      omega
    · rw [decimal_ge_ten n (by omega), List.append_assoc, ih (n / 10) (by omega)]
      simp only [List.singleton_append, scanDigits, isdigit_digitChar, if_true, digitChar_val,
        List.length_append, List.length_singleton, pow_succ]
      congr 1
      have := Nat.div_add_mod n 10
      have e : n % 10 % 10 = n % 10 := Nat.mod_mod _ _
      rw [e]
      generalize 10 ^ (decimal (n / 10)).length = p at *
      have h1 : 10 * (v * p + n / 10) = v * p * 10 + 10 * (n / 10) := by ring
      have h2 : v * (p * 10) = v * p * 10 := by ring
      omega

theorem decimal_head (n : Nat) :
    ∃ c rest, decimal n = c :: rest ∧ isdigit c = true := by
  induction n using Nat.strong_induction_on with
  | _ n ih =>
    by_cases hn : n < 10
    · exact ⟨digitChar n, [], decimal_lt_ten n hn, isdigit_digitChar n⟩
    · obtain ⟨c, rest, e, hc⟩ := ih (n / 10) (by omega)
      exact ⟨c, rest ++ [digitChar (n % 10)], by rw [decimal_ge_ten n (by omega), e]; rfl, hc⟩

theorem decimal_length :
    ∀ (k n : Nat), n < 10 ^ (k + 1) → (decimal n).length ≤ k + 1 := by
  intro k
  induction k with
  | zero =>
    intro n h
    rw [decimal_lt_ten n (by simpa using h)]
    simp
  | succ k ih =>
    intro n h
    by_cases hn : n < 10
    · rw [decimal_lt_ten n hn]
      simp
    · rw [decimal_ge_ten n (by omega)]
      have h1 : n / 10 < 10 ^ (k + 1) := by
        rw [Nat.div_lt_iff_lt_mul (by decide)]
        rw [pow_succ] at h
        exact h
      have := ih (n / 10) h1
      simp
      omega

theorem matchLiteral_toolchain (s : List Byte) :
    matchLiteral toolchainLit (toolchainLit ++ s) = Scan.ok () s := by
  simp [matchLiteral, toolchainLit]

theorem scanInt_decimal (n : Nat) :
    scanInt (decimal n ++ shLit) = Scan.ok (n : Int) shLit := by
  obtain ⟨c, rest, e, hc⟩ := decimal_head n
  obtain ⟨hsp, hm, hp⟩ := isdigit_not_space_sign c hc
  have hscan := scanDigits_decimal n 0 shLit
  have h46 : isdigit 46 = false := by decide
  have hsh : scanDigits shLit (0 * 10 ^ (decimal n).length + n) = (n, shLit) := by
    simp [shLit, scanDigits, h46]
  rw [hsh] at hscan
  rw [e] at hscan ⊢
  simp only [List.cons_append] at hscan ⊢
  simp only [scanInt, List.dropWhile, hsp, hm, hp, hc, if_false, if_true, hscan]

theorem getOrdinal_decimal (N : Nat) (hN : N < 2 ^ 31 - 1) :
    getOrdinal (toolchainLit ++ decimal N ++ shLit) = some (N : Int) := by
  have hr : INT_MIN ≤ (N : Int) ∧ (N : Int) ≤ INT_MAX := by
    unfold INT_MIN INT_MAX
    constructor <;> omega
  simp only [getOrdinal, sscanfOrd, List.append_assoc, matchLiteral_toolchain, scanInt_decimal,
    hr, and_self, if_true]

/-- The bound of C19 is the last one: `toolchain2147483646.sh` gives
`toolchain2147483647.sh`, and for `toolchain2147483647.sh` the sum
`ordinal + 1` does not fit an `int`. -/
theorem output_file_name_edge :
    buildName (toolchainLit ++ decimal 2147483646 ++ shLit) =
      Naming.built (toolchainLit ++ decimal 2147483647 ++ shLit) ∧
    getOrdinal (toolchainLit ++ decimal 2147483647 ++ shLit) = some 2147483647 ∧
    buildName (toolchainLit ++ decimal 2147483647 ++ shLit) = Naming.undefined := by
  refine ⟨by decide, by decide, by decide⟩

/-- C19 (output file name): for every `N` with `0 ≤ N < 2^31 - 1`, written in
decimal, `getOrdinal` applied to `toolchain<N>.sh` returns `N`, the name `main`
builds is `toolchain<N+1>.sh`, and this name with its terminator fits the array
`ofilename`, whose size is 26. -/
theorem output_file_name (N : Nat) (hN : N < 2 ^ 31 - 1) :
    getOrdinal (toolchainLit ++ decimal N ++ shLit) = some (N : Int) ∧
    buildName (toolchainLit ++ decimal N ++ shLit) =
      Naming.built (toolchainLit ++ decimal (N + 1) ++ shLit) ∧
    (toolchainLit ++ decimal (N + 1) ++ shLit).length + 1 ≤ ofilenameSize ∧
    ofilenameSize = 26 := by
  have hord := getOrdinal_decimal N hN
  have hlen : (decimal (N + 1)).length ≤ 10 :=
    decimal_length 9 (N + 1) (by norm_num; omega)
  have hfit : (toolchainLit ++ decimal (N + 1) ++ shLit).length + 1 ≤ ofilenameSize := by
    simp [toolchainLit, shLit, ofilenameSize]
    omega
  have hprint : printInt ((N : Int) + 1) = decimal (N + 1) := by
    have h0 : ¬ ((N : Int) + 1 < 0) := by omega
    have h1 : ((N : Int) + 1).toNat = N + 1 := by omega
    simp only [printInt, h0, if_false, h1]
  refine ⟨hord, ?_, hfit, by decide⟩
  have hneg : ¬ ((N : Int) < 0) := by omega
  have hov : ¬ (INT_MAX < (N : Int) + 1) := by
    unfold INT_MAX
    omega
  have hfit1 : ¬ (ofilenameSize < (toolchainLit ++ decimal (N + 1) ++ shLit).length + 1) := by
    omega
  have hne : ¬ ((toolchainLit ++ decimal (N + 1) ++ shLit).length = 0) := by
    simp [toolchainLit]
  simp only [buildName, hord, hneg, hov, hprint, hfit1, hne, if_false]

/-- C19 for `N = 41`: `toolchain41.sh` gives the ordinal 41 and the output
file name `toolchain42.sh`. -/
theorem output_file_name_witness :
    getOrdinal [116, 111, 111, 108, 99, 104, 97, 105, 110, 52, 49, 46, 115, 104]
      = some ((41 : Nat) : Int) ∧
    buildName [116, 111, 111, 108, 99, 104, 97, 105, 110, 52, 49, 46, 115, 104] =
      Naming.built [116, 111, 111, 108, 99, 104, 97, 105, 110, 52, 50, 46, 115, 104] ∧
    ([116, 111, 111, 108, 99, 104, 97, 105, 110, 52, 50, 46, 115, 104] : List Byte).length + 1
      ≤ ofilenameSize ∧
    ofilenameSize = 26 :=
  output_file_name 41 (by decide)

/-! ## The growth attempts of a call are counted -/

theorem readLoop_allocs_le (heap : Heap) :
    ∀ (s : List Byte) (n : Nat) (b : Buffer) (k : Nat) (r : Result),
      readLoop heap s n b k = some r → k ≤ r.st.allocs := by
  intro s
  induction s with
  | nil =>
    intro n b k r h
    unfold readLoop at h
    split at h
    · obtain ⟨b1, _, hr⟩ := Option.map_eq_some'.1 h
      subst hr
      exact Nat.le_refl _
    · simp at h
      subst h
      exact Nat.le_refl _
  | cons c rest ih =>
    intro n b k r h
    unfold readLoop at h
    split at h
    · split at h
      · obtain ⟨b1, _, hr⟩ := Option.map_eq_some'.1 h
        subst hr
        exact Nat.le_refl _
      · obtain ⟨b0, _, h1⟩ := Option.bind_eq_some.1 h
        obtain ⟨b1, _, hr⟩ := Option.map_eq_some'.1 h1
        subst hr
        exact Nat.le_refl _
    · split at h
      · obtain ⟨b1, _, h1⟩ := Option.bind_eq_some.1 h
        exact ih _ _ _ _ h1
      · simp only at h
        split at h
        · obtain ⟨b1, _, h1⟩ := Option.bind_eq_some.1 h
          have := ih _ _ _ _ h1
          omega
        · split at h
          · obtain ⟨b1, _, hr⟩ := Option.map_eq_some'.1 h
            subst hr
            simp
          · have := ih _ _ _ _ h
            omega

/-- A growth failure in the middle of a run is what the counter of `realloc`
calls records: from capacity 2, when the buffer cannot take the character `c`
read after the alphanumeric characters `pre` and `expand` fails there, at
least one character of the run is already stored, and the failed call bears a
number from `k` up to, not including, the count the call leaves. -/
theorem growth_failure_is_counted (heap : Heap) (pre : List Byte) (c : Byte)
    (rest : List Byte) (b : Buffer) (k : Nat) (hs : b.sized) (h2 : 2 ≤ b.bufsize)
    (hpre : ∀ x ∈ pre, isAlnum x = true) (hc : isAlnum c = true) :
    ∃ (n1 : Nat) (b1 : Buffer) (k1 : Nat),
      (∀ tail, readLoop heap (pre ++ tail) 0 b k = readLoop heap tail n1 b1 k1) ∧
      (¬ n1 + 1 < b1.bufsize → (expand heap k1 b1).1 = 0 →
        heap k1 = none ∧ 1 ≤ n1 ∧ k ≤ k1 ∧
        ∀ r, getNextSym heap ⟨pre ++ c :: rest, b, k⟩ = some r → k1 < r.st.allocs) := by
  obtain ⟨n1, b1, k1, heq, hs1, hlt, hle, _, _, hk, _⟩ :=
    readLoop_prefix heap pre hpre 0 b k hs (by omega)
  refine ⟨n1, b1, k1, heq, ?_⟩
  intro hfull hfail
  have hnone : heap k1 = none := by
    cases hk1 : heap k1 with
    | none => rfl
    | some fresh => simp [expand, hk1] at hfail
  refine ⟨hnone, by omega, hk, ?_⟩
  intro r hr
  unfold getNextSym at hr
  simp only at hr
  rw [heq (c :: rest)] at hr
  have hc1 := (isAlnum_true_iff c).1 hc
  have hex : expand heap k1 b1 = (0, b1) := by simp [expand, hnone]
  unfold readLoop at hr
  simp only [hc1, hfull, hex] at hr
  simp [show n1 ≠ b1.bufsize by omega] at hr
  have := readLoop_allocs_le heap _ _ _ _ _ hr
  omega

end Sub5
